import Mathlib

/-!
Shallow embedding of `karateclub/community_detection/overlapping/ego_splitter.py`
(`class EgoNetSplitter`), together with proofs about it.

Modelling conventions:
* A `networkx` undirected graph is a node list (in insertion order), an
  adjacency function (each node's neighbor list in insertion order) and an
  optional weight attribute per edge.  `Graph.WF` states the facts that hold
  for every `networkx` graph: node list without duplicates, duplicate-free
  adjacency, symmetric adjacency with shared edge-attribute dictionaries.
* Python dicts are modelled as functions into `Option` (with insertion-order
  iteration made explicit where the code iterates over `.items()`).
* Python exceptions (`ValueError` raised in `_create_egonet`, `KeyError` from
  dict lookups, `AttributeError` from reading the unset `self.partitions`)
  are modelled with `Except PyError`.
* The external calls (`community.best_partition`, i.e. python-louvain) are
  modelled as an oracle parameter `louvainImpl`; the spec's contract on it is
  taken as a hypothesis where a theorem needs it.
-/

namespace EgoSplitter

/-- Python exceptions that `EgoNetSplitter.fit` can raise. -/
inductive PyError where
  | valueError
  | keyError
  | attributeError
deriving DecidableEq, Repr

/-- A `networkx` graph: node insertion order, adjacency lists (insertion
order), and the optional `weight` edge attribute. -/
structure Graph where
  nodes : List Nat
  adj : Nat → List Nat
  wAttr : Nat → Nat → Option Int

/-- Facts true of every `networkx` undirected graph: no duplicate nodes, no
duplicate neighbors, endpoints of edges are nodes, adjacency is symmetric and
the edge-attribute dictionary is shared between the two directions. -/
def Graph.WF (g : Graph) : Prop :=
  g.nodes.Nodup ∧
  (∀ u ∈ g.nodes, (g.adj u).Nodup) ∧
  (∀ u ∈ g.nodes, ∀ v ∈ g.adj u, v ∈ g.nodes ∧ u ∈ g.adj v ∧ g.wAttr u v = g.wAttr v u)

instance (g : Graph) : Decidable g.WF := by
  unfold Graph.WF; infer_instance

/-- Edge iteration of `networkx` (`Graph.edges`): nodes in order, each node
yields its not-yet-seen neighbors, then is added to `seen`; every edge is
reported exactly once, from the endpoint that comes first. -/
def edgesAux (adj : Nat → List Nat) : List Nat → List Nat → List (Nat × Nat)
  | [], _ => []
  | u :: rest, seen =>
      ((adj u).filter (fun v => decide (v ∉ seen))).map (fun v => (u, v))
        ++ edgesAux adj rest (u :: seen)

/-- List of edges of `g`, in `networkx` iteration order. -/
def edgeList (g : Graph) : List (Nat × Nat) :=
  edgesAux g.adj g.nodes []

/-- Node list of the ego-net of `node` (the induced subgraph on
`neighbors(node)`, the ego excluded), as built by
`self.graph.subgraph(self.graph.neighbors(node))`. -/
def egoSubNodes (g : Graph) (node : Nat) : List Nat :=
  g.nodes.filter (fun v => decide (v ∈ g.adj node))

/-- Adjacency inside the ego-net of `node`: neighbors restricted to the
ego-net's node set. -/
def egoAdj (g : Graph) (node : Nat) (u : Nat) : List Nat :=
  (g.adj u).filter (fun v => decide (v ∈ egoSubNodes g node))

/-- Breadth-first search collecting reachable nodes, as in
`networkx.connected_components`.  `seen` is extended in visit order; `fuel`
only forces termination and is chosen large enough at every call site.
Components of an undirected graph are disjoint, so threading the already
visited nodes through is equivalent to starting each BFS afresh. -/
def bfsCollect (adjS : Nat → List Nat) : Nat → List Nat → List Nat → List Nat
  | 0, _, seen => seen
  | _ + 1, [], seen => seen
  | fuel + 1, u :: queue, seen =>
      if u ∈ seen then bfsCollect adjS fuel queue seen
      else bfsCollect adjS fuel (queue ++ adjS u) (seen ++ [u])

/-- Connected components enumeration of `networkx.connected_components`:
scan the nodes in order, each unseen node starts a BFS; the newly visited
nodes form the next component. -/
def componentsAux (adjS : Nat → List Nat) (fuel : Nat) : List Nat → List Nat → List (List Nat)
  | [], _ => []
  | v :: rest, seen =>
      if v ∈ seen then componentsAux adjS fuel rest seen
      else
        let seen2 := bfsCollect adjS fuel [v] seen
        seen2.drop seen.length :: componentsAux adjS fuel rest seen2

/-- Ample BFS fuel: one BFS performs at most `1 + Σ degrees` steps. -/
def graphFuel (g : Graph) : Nat :=
  (g.nodes.length + 1) * (g.nodes.length + 1)

/-- Local clusters of `node`'s ego-net under the built-in `'components'`
strategy: `{i: n for i, n in enumerate(nx.connected_components(ego_net_minus_ego))}`
(the keys `i` are irrelevant; the dict iterates its values in insertion
order). -/
def egoComponents (g : Graph) (node : Nat) : List (List Nat) :=
  componentsAux (egoAdj g node) (graphFuel g) (egoSubNodes g node) []

/-- The `method_local` argument: a strategy name or a callable receiving the
ego-net (its node list and adjacency) and returning a cluster dict, modelled
as its list of clusters in dict-iteration order. -/
inductive LocalMethod where
  | name (s : String)
  | callable (f : List Nat → (Nat → List Nat) → List (List Nat))

/-- Clusters a (resolvable) local method produces for `node`'s ego-net. -/
def clustersFn (g : Graph) (m : LocalMethod) (node : Nat) : List (List Nat) :=
  match m with
  | .name _ => egoComponents g node
  | .callable f => f (egoSubNodes g node) (egoAdj g node)

/-- Local-method dispatch of `_create_egonet`: a callable is applied, the
string `'components'` selects connected components, any other string raises
`ValueError`. -/
def localClusters (g : Graph) (m : LocalMethod) (node : Nat) :
    Except PyError (List (List Nat)) :=
  match m with
  | .callable _ => .ok (clustersFn g m node)
  | .name s => if s = "components" then .ok (clustersFn g m node) else .error .valueError

/-- Mutable state built by `_create_egonets`: the persona counter
`self.index`, the per-node dict `self.components` (neighbor → persona id) and
the per-node ordered persona list `self.personalities`. -/
structure EgoState where
  index : Nat
  comp : Nat → Nat → Option Nat
  pers : Nat → List Nat

/-- Initial state of `_create_egonets`. -/
def initState : EgoState :=
  ⟨0, fun _ _ => none, fun _ => []⟩

/-- One iteration of the `for k, v in components.items()` loop of
`_create_egonet`: the accumulator is `(new_mapping, personalities, index)`;
the fresh persona id is appended to `personalities`, and every member of the
cluster is mapped to it (a later cluster overwrites an earlier one on a
duplicated member, exactly like the Python dict assignment). -/
def clusterStep (acc : (Nat → Option Nat) × List Nat × Nat) (cluster : List Nat) :
    (Nat → Option Nat) × List Nat × Nat :=
  (fun v => if v ∈ cluster then some acc.2.2 else acc.1 v,
   acc.2.1 ++ [acc.2.2],
   acc.2.2 + 1)

/-- The state update of `_create_egonet` for one node, given the clusters its
local strategy returned. -/
def doNode (cs : List (List Nat)) (st : EgoState) (node : Nat) : EgoState :=
  let r := cs.foldl clusterStep ((fun _ => none), [], st.index)
  ⟨r.2.2,
   fun u => if u = node then r.1 else st.comp u,
   fun u => if u = node then r.2.1 else st.pers u⟩

/-- The pure part of `_create_egonets`: fold `_create_egonet` over the nodes
with a cluster function already resolved. -/
def egoRun (g : Graph) (cf : Nat → List (List Nat)) : EgoState :=
  g.nodes.foldl (fun st n => doNode (cf n) st n) initState

/-- The state produced by `_create_egonets` with the default `'components'`
local strategy. -/
def egoRunC (g : Graph) : EgoState :=
  egoRun g (egoComponents g)

/-- Faithful `_create_egonets`: the local-method dispatch can raise
`ValueError` on an unrecognized strategy name. -/
def createEgonets (g : Graph) (m : LocalMethod) : Except PyError EgoState :=
  g.nodes.foldlM (fun st n => (localClusters g m n).map (fun cs => doNode cs st n)) initState

/-- The dict comprehension of `_map_personalities`:
`{p: n for n in self.graph.nodes() for p in self.personalities[n]}`
(a later binding overwrites an earlier one). -/
def personalityMap (g : Graph) (st : EgoState) : Nat → Option Nat :=
  g.nodes.foldl
    (fun acc n => (st.pers n).foldl (fun acc2 p => fun q => if q = p then some n else acc2 q) acc)
    (fun _ => none)

/-- A persona-graph edge as emitted by `_get_new_edge_ids`: the two persona
endpoints and the optional `{weight_key: w}` attribute dict (`none` models
the 2-tuple without attributes). -/
structure PersonaEdge where
  pu : Nat
  pv : Nat
  w : Option Int
deriving DecidableEq, Repr

/-- The body of `_get_new_edge_ids`: both persona lookups
(`self.components[u][v]`, `self.components[v][u]`) must hit, otherwise a
`KeyError` propagates; the weight attribute is attached only when
`self.weight` is not `None` and the original edge carries the attribute
(`weighted` says whether `self.weight` is not `None`). -/
def getNewEdgeIds (g : Graph) (weighted : Bool) (st : EgoState) (e : Nat × Nat) :
    Except PyError PersonaEdge :=
  match st.comp e.1 e.2, st.comp e.2 e.1 with
  | some pu, some pv => .ok ⟨pu, pv, if weighted then g.wAttr e.1 e.2 else none⟩
  | _, _ => .error .keyError

/-- The edge list built by `_create_persona_graph`
(`self.persona_graph_edges`), one entry per original edge, in edge-iteration
order. -/
def personaGraphEdges (g : Graph) (weighted : Bool) (st : EgoState) :
    Except PyError (List PersonaEdge) :=
  (edgeList g).mapM (getNewEdgeIds g weighted st)

/-- Node list of `nx.from_edgelist(self.persona_graph_edges)`: first
appearance order, first endpoint first. -/
def pgNodes (pes : List PersonaEdge) : List Nat :=
  pes.foldl
    (fun acc e =>
      let acc1 := if e.pu ∈ acc then acc else acc ++ [e.pu]
      if e.pv ∈ acc1 then acc1 else acc1 ++ [e.pv])
    []

/-- Two ordered pairs describe the same undirected edge. -/
def sameUnordered (a b : Nat × Nat) : Prop :=
  (a.1 = b.1 ∧ a.2 = b.2) ∨ (a.1 = b.2 ∧ a.2 = b.1)

instance : DecidablePred fun ab : (Nat × Nat) × Nat × Nat => sameUnordered ab.1 ab.2 := by
  intro ab; unfold sameUnordered; infer_instance

instance (a b : Nat × Nat) : Decidable (sameUnordered a b) := by
  unfold sameUnordered; infer_instance

/-- Edge set of `nx.from_edgelist(...)`: an undirected simple graph, so a
later entry on an already present persona pair only updates attributes and
adds no new edge.  The list holds one representative pair per persona-graph
edge, in first-appearance order. -/
def pgEdgePairs (pes : List PersonaEdge) : List (Nat × Nat) :=
  pes.foldl
    (fun acc e =>
      if acc.any (fun q => decide (sameUnordered q (e.pu, e.pv))) then acc
      else acc ++ [(e.pu, e.pv)])
    []

/-- The `method_global` argument: a strategy name or a callable receiving the
persona graph and returning a partition dict, modelled as its key/value list
in dict-iteration order. -/
inductive GlobalMethod where
  | name (s : String)
  | callable (f : List PersonaEdge → List (Nat × Int))

/-- Global-method dispatch of `_create_partitions`.  A callable is applied to
the persona graph; `'louvain'` calls `community.best_partition` (the external
oracle `louvainImpl`, closed over `resolution`/`seed`/`weight`).  Any other
string matches no branch: `self.partitions` is never assigned and the later
`self.partitions.items()` raises `AttributeError` on a freshly constructed
estimator — after `self.overlapping_partitions` was already initialized. -/
def partitionsDict (pes : List PersonaEdge) (m : GlobalMethod)
    (louvainImpl : List PersonaEdge → List (Nat × Int)) :
    Except PyError (List (Nat × Int)) :=
  match m with
  | .callable f => .ok (f pes)
  | .name s => if s = "louvain" then .ok (louvainImpl pes) else .error .attributeError

/-- The aggregation loop of `_create_partitions`:
`self.overlapping_partitions = {node: [] for node in self.graph.nodes()}`,
then for each `(node, membership)` of the partition dict, append `membership`
to `self.overlapping_partitions[self.personality_map[node]]`; either lookup
can raise `KeyError`. -/
def buildMemberships (g : Graph) (parts : List (Nat × Int)) (pmap : Nat → Option Nat) :
    Except PyError (Nat → Option (List Int)) :=
  parts.foldlM
    (fun acc pc =>
      match pmap pc.1 with
      | none => .error .keyError
      | some ow =>
        match acc ow with
        | none => .error .keyError
        | some l => .ok (fun x => if x = ow then some (l ++ [pc.2]) else acc x))
    (fun x => if x ∈ g.nodes then some [] else none)

/-- The whole `fit` pipeline: `_create_egonets`, `_map_personalities`,
`_create_persona_graph`, `_create_partitions`.  `weighted` is whether
`self.weight` is not `None`; the result is `self.overlapping_partitions`,
which `get_memberships` returns. -/
def fitModel (g : Graph) (weighted : Bool) (lm : LocalMethod) (gm : GlobalMethod)
    (louvainImpl : List PersonaEdge → List (Nat × Int)) :
    Except PyError (Nat → Option (List Int)) := do
  let st ← createEgonets g lm
  let pes ← personaGraphEdges g weighted st
  let parts ← partitionsDict pes gm louvainImpl
  buildMemberships g parts (personalityMap g st)

/-- Reads one node's membership list out of a `fit` result (`none` when `fit`
raised or the node is absent from the returned dict). -/
def memAt (r : Except PyError (Nat → Option (List Int))) (n : Nat) : Option (List Int) :=
  match r with
  | .ok m => m n
  | .error _ => none

/-- Value a partition dict assigns to a persona (`CommunityAssignment[p]`);
defaults to `0` for an absent key, which never happens where it is used. -/
def lookupVal (parts : List (Nat × Int)) (p : Nat) : Option Int :=
  (parts.find? (fun pc => decide (pc.1 = p))).map Prod.snd

/-- The fold of `_create_egonet` over a node list, from an arbitrary state. -/
def egoFold (cf : Nat → List (List Nat)) (st : EgoState) (l : List Nat) : EgoState :=
  l.foldl (fun s n => doNode (cf n) s n) st

/-- One step of the outer comprehension loop: fold node `n`'s personas into
the accumulated dict. -/
def pmapStep (st : EgoState) (acc : Nat → Option Nat) (n : Nat) : Nat → Option Nat :=
  (st.pers n).foldl (fun acc2 p => fun q => if q = p then some n else acc2 q) acc

/-- Appending a node to a `networkx` node list if absent. -/
def addNode (acc : List Nat) (v : Nat) : List Nat :=
  if v ∈ acc then acc else acc ++ [v]

/-- One step of the node-collection fold of `pgNodes`. -/
def pgStep (acc : List Nat) (e : PersonaEdge) : List Nat :=
  addNode (addNode acc e.pu) e.pv

/-- One step of the edge-collection fold of `pgEdgePairs`. -/
def pgeStep (acc : List (Nat × Nat)) (e : PersonaEdge) : List (Nat × Nat) :=
  if acc.any (fun q => decide (sameUnordered q (e.pu, e.pv))) then acc
  else acc ++ [(e.pu, e.pv)]

/-- Whether an `Except` computation finished without raising. -/
def isOkB {α : Type} (r : Except PyError α) : Bool :=
  match r with
  | .ok _ => true
  | .error _ => false

/-! ### Concrete graphs used as witnesses and counterexamples -/

/-- Triangle graph 0-1-2, every edge with weight attribute 5. -/
def triG : Graph :=
  ⟨[0, 1, 2],
   fun n => if n = 0 then [1, 2] else if n = 1 then [0, 2] else if n = 2 then [0, 1] else [],
   fun u v => if u ≤ 2 ∧ v ≤ 2 ∧ u ≠ v then some 5 else none⟩

/-- Star graph: center 0, leaves 1 and 2, unweighted. -/
def starG : Graph :=
  ⟨[0, 1, 2],
   fun n => if n = 0 then [1, 2] else if n = 1 then [0] else if n = 2 then [0] else [],
   fun _ _ => none⟩

/-- Two-node path 0-1 whose edge has no weight attribute. -/
def pathG : Graph :=
  ⟨[0, 1],
   fun n => if n = 0 then [1] else if n = 1 then [0] else [],
   fun _ _ => none⟩

/-- Two-node path 0-1 whose edge carries weight attribute 7. -/
def pathW : Graph :=
  ⟨[0, 1],
   fun n => if n = 0 then [1] else if n = 1 then [0] else [],
   fun u v => if (u = 0 ∧ v = 1) ∨ (u = 1 ∧ v = 0) then some 7 else none⟩

/-- Path 0-1 plus the isolated node 2. -/
def isoG : Graph :=
  ⟨[0, 1, 2],
   fun n => if n = 0 then [1] else if n = 1 then [0] else [],
   fun _ _ => none⟩

/-- A local strategy that puts every neighbor into two clusters (violating
the partition contract by duplication). -/
def dupLocal : LocalMethod :=
  .callable (fun subNodes _ => [subNodes, subNodes])

/-- A local strategy that returns no clusters at all (omitting every
neighbor). -/
def emptyLocal : LocalMethod :=
  .callable (fun _ _ => [])

/-! ### The cluster loop of `_create_egonet` -/

theorem clusterFold_snd (cs : List (List Nat)) (m0 : Nat → Option Nat) (ps0 : List Nat)
    (i0 : Nat) :
    (cs.foldl clusterStep (m0, ps0, i0)).2.1 = ps0 ++ List.range' i0 cs.length ∧
    (cs.foldl clusterStep (m0, ps0, i0)).2.2 = i0 + cs.length := by
  induction cs generalizing m0 ps0 i0 with
  | nil => simp
  | cons c cs ih =>
    simp only [List.foldl_cons, clusterStep]
    have h := ih (fun v => if v ∈ c then some i0 else m0 v) (ps0 ++ [i0]) (i0 + 1)
    refine ⟨?_, by rw [h.2]; simp; omega⟩
    rw [h.1, List.append_assoc, List.length_cons, List.range'_succ]
    rfl

theorem clusterFold_map_some {cs : List (List Nat)} {m0 : Nat → Option Nat} {ps0 : List Nat}
    {i0 v p : Nat} (h : (cs.foldl clusterStep (m0, ps0, i0)).1 v = some p) :
    m0 v = some p ∨ p ∈ List.range' i0 cs.length := by
  induction cs generalizing m0 ps0 i0 with
  | nil => exact Or.inl h
  | cons c cs ih =>
    simp only [List.foldl_cons, clusterStep] at h
    rcases ih h with h1 | h1
    · by_cases hv : v ∈ c
      · simp only [if_pos hv, Option.some.injEq] at h1
        right
        rw [List.length_cons, List.range'_succ]
        exact h1 ▸ List.mem_cons_self _ _
      · simp only [if_neg hv] at h1
        exact Or.inl h1
    · right
      rw [List.length_cons, List.range'_succ]
      exact List.mem_cons_of_mem _ h1

theorem clusterFold_map_isSome {cs : List (List Nat)} {m0 : Nat → Option Nat} {ps0 : List Nat}
    {i0 v : Nat} (h : (m0 v).isSome) :
    ((cs.foldl clusterStep (m0, ps0, i0)).1 v).isSome := by
  induction cs generalizing m0 ps0 i0 with
  | nil => exact h
  | cons c cs ih =>
    simp only [List.foldl_cons, clusterStep]
    apply ih
    by_cases hv : v ∈ c <;> simp [hv, h]

theorem clusterFold_map_cover {cs : List (List Nat)} {m0 : Nat → Option Nat} {ps0 : List Nat}
    {i0 v : Nat} (h : ∃ c ∈ cs, v ∈ c) :
    ((cs.foldl clusterStep (m0, ps0, i0)).1 v).isSome := by
  induction cs generalizing m0 ps0 i0 with
  | nil => simp at h
  | cons c cs ih =>
    simp only [List.foldl_cons, clusterStep]
    rcases h with ⟨c', hc', hv⟩
    rcases List.mem_cons.mp hc' with rfl | hc'
    · exact clusterFold_map_isSome (by simp [hv])
    · exact ih ⟨c', hc', hv⟩

theorem clusterFold_map_notMem {cs : List (List Nat)} {m0 : Nat → Option Nat} {ps0 : List Nat}
    {i0 v : Nat} (h : ∀ c ∈ cs, v ∉ c) :
    (cs.foldl clusterStep (m0, ps0, i0)).1 v = m0 v := by
  induction cs generalizing m0 ps0 i0 with
  | nil => rfl
  | cons c cs ih =>
    simp only [List.foldl_cons, clusterStep]
    rw [ih (fun c' hc' => h c' (List.mem_cons_of_mem _ hc'))]
    simp [h c (List.mem_cons_self _ _)]

theorem clusterFold_cluster_witness {cs : List (List Nat)} (hnd : cs.flatten.Nodup)
    (hne : ∀ c ∈ cs, c ≠ []) :
    ∀ (j : Nat) (hj : j < cs.length) (m0 : Nat → Option Nat) (ps0 : List Nat) (i : Nat),
      ∃ v ∈ cs.get ⟨j, hj⟩, (cs.foldl clusterStep (m0, ps0, i)).1 v = some (i + j) := by
  induction cs with
  | nil => intro j hj; simp at hj
  | cons c cs ih =>
    intro j hj m0 ps0 i
    rw [List.flatten_cons, List.nodup_append] at hnd
    match j with
    | 0 =>
      obtain ⟨v, hv⟩ : ∃ v, v ∈ c := by
        cases c with
        | nil => exact absurd rfl (hne [] (List.mem_cons_self _ _))
        | cons a c => exact ⟨a, List.mem_cons_self _ _⟩
      refine ⟨v, hv, ?_⟩
      simp only [List.foldl_cons, clusterStep]
      have hnot : ∀ c' ∈ cs, v ∉ c' := by
        intro c' hc' hvc'
        exact hnd.2.2 hv (List.mem_flatten.mpr ⟨c', hc', hvc'⟩)
      rw [clusterFold_map_notMem hnot]
      simp [hv]
    | j + 1 =>
      simp only [List.foldl_cons, clusterStep, List.get_cons_succ]
      have hj' : j < cs.length := by simpa using hj
      obtain ⟨v, hv, hmap⟩ := ih hnd.2.1 (fun c' hc' => hne c' (List.mem_cons_of_mem _ hc'))
        j hj' (fun v => if v ∈ c then some i else m0 v) (ps0 ++ [i]) (i + 1)
      exact ⟨v, hv, by rw [hmap]; congr 1; omega⟩

/-! ### The node loop of `_create_egonets` -/

theorem egoRun_eq_egoFold (g : Graph) (cf : Nat → List (List Nat)) :
    egoRun g cf = egoFold cf initState g.nodes := rfl

theorem egoFold_cons (cf : Nat → List (List Nat)) (st : EgoState) (n : Nat) (l : List Nat) :
    egoFold cf st (n :: l) = egoFold cf (doNode (cf n) st n) l := rfl

theorem doNode_index (cs : List (List Nat)) (st : EgoState) (n : Nat) :
    (doNode cs st n).index = st.index + cs.length :=
  (clusterFold_snd cs _ [] st.index).2

theorem doNode_pers_self (cs : List (List Nat)) (st : EgoState) (n : Nat) :
    (doNode cs st n).pers n = List.range' st.index cs.length := by
  show (if n = n then _ else _) = _
  rw [if_pos rfl, (clusterFold_snd cs _ [] st.index).1, List.nil_append]

theorem doNode_pers_other (cs : List (List Nat)) (st : EgoState) {n u : Nat} (h : u ≠ n) :
    (doNode cs st n).pers u = st.pers u := by
  show (if u = n then _ else _) = _
  rw [if_neg h]

theorem doNode_comp_other (cs : List (List Nat)) (st : EgoState) {n u : Nat} (h : u ≠ n) :
    (doNode cs st n).comp u = st.comp u := by
  show (if u = n then _ else _) = _
  rw [if_neg h]

theorem doNode_comp_self (cs : List (List Nat)) (st : EgoState) (n : Nat) :
    (doNode cs st n).comp n = (cs.foldl clusterStep ((fun _ => none), [], st.index)).1 := by
  show (if n = n then _ else _) = _
  rw [if_pos rfl]

theorem egoFold_frame (cf : Nat → List (List Nat)) {l : List Nat} {u : Nat} (h : u ∉ l) :
    ∀ st : EgoState,
      (egoFold cf st l).comp u = st.comp u ∧ (egoFold cf st l).pers u = st.pers u := by
  induction l with
  | nil => intro st; exact ⟨rfl, rfl⟩
  | cons n l ih =>
    intro st
    have hu : u ≠ n := fun he => h (he ▸ List.mem_cons_self _ _)
    rw [egoFold_cons]
    rcases ih (fun hl => h (List.mem_cons_of_mem _ hl)) (doNode (cf n) st n) with ⟨h1, h2⟩
    exact ⟨h1.trans (doNode_comp_other _ _ hu), h2.trans (doNode_pers_other _ _ hu)⟩

theorem egoFold_index_le (cf : Nat → List (List Nat)) (l : List Nat) :
    ∀ st : EgoState, st.index ≤ (egoFold cf st l).index := by
  induction l with
  | nil => intro st; exact le_rfl
  | cons n l ih =>
    intro st
    rw [egoFold_cons]
    calc st.index ≤ (doNode (cf n) st n).index := by rw [doNode_index]; omega
      _ ≤ _ := ih _

theorem egoFold_flat (cf : Nat → List (List Nat)) {l : List Nat} (hnd : l.Nodup) :
    ∀ st : EgoState,
      l.flatMap (egoFold cf st l).pers
        = List.range' st.index ((egoFold cf st l).index - st.index) := by
  induction l with
  | nil => intro st; simp [egoFold]
  | cons n l ih =>
    intro st
    rw [List.flatMap_cons, egoFold_cons]
    have hn : n ∉ l := (List.nodup_cons.mp hnd).1
    have h1 : (egoFold cf (doNode (cf n) st n) l).pers n = List.range' st.index (cf n).length :=
      ((egoFold_frame cf hn _).2).trans (doNode_pers_self _ _ _)
    rw [h1, ih (List.nodup_cons.mp hnd).2]
    have h2 : (doNode (cf n) st n).index = st.index + (cf n).length := doNode_index _ _ _
    have h3 := egoFold_index_le cf l (doNode (cf n) st n)
    rw [h2] at h3 ⊢
    have h4 : (egoFold cf (doNode (cf n) st n) l).index - st.index
        = ((egoFold cf (doNode (cf n) st n) l).index - (st.index + (cf n).length))
          + (cf n).length := by omega
    rw [h4, ← List.range'_append st.index (cf n).length _ 1]
    simp

theorem egoFold_comp_pers (cf : Nat → List (List Nat)) (l : List Nat) :
    ∀ st : EgoState, (∀ u v p, st.comp u v = some p → p ∈ st.pers u) →
      ∀ u v p, (egoFold cf st l).comp u v = some p → p ∈ (egoFold cf st l).pers u := by
  induction l with
  | nil => intro st h; exact h
  | cons n l ih =>
    intro st h
    rw [egoFold_cons]
    refine ih _ ?_
    intro u v p hc
    by_cases hu : u = n
    · subst hu
      rw [doNode_comp_self] at hc
      rcases clusterFold_map_some hc with h1 | h1
      · exact absurd h1 (by simp)
      · rw [doNode_pers_self]
        exact h1
    · rw [doNode_comp_other _ _ hu] at hc
      rw [doNode_pers_other _ _ hu]
      exact h u v p hc

theorem egoRun_comp_pers (g : Graph) (cf : Nat → List (List Nat)) {u v p : Nat}
    (h : (egoRun g cf).comp u v = some p) : p ∈ (egoRun g cf).pers u := by
  rw [egoRun_eq_egoFold] at *
  exact egoFold_comp_pers cf g.nodes initState (by intro _ _ _ hc; exact absurd hc (by simp [initState])) u v p h

theorem egoFold_comp_cover (cf : Nat → List (List Nat)) {l : List Nat} {u v : Nat}
    (hnd : l.Nodup) (hu : u ∈ l) (hc : ∃ c ∈ cf u, v ∈ c) :
    ∀ st : EgoState, ((egoFold cf st l).comp u v).isSome := by
  induction l with
  | nil => simp at hu
  | cons n l ih =>
    intro st
    rw [egoFold_cons]
    rcases List.mem_cons.mp hu with rfl | hu'
    · have hn : u ∉ l := (List.nodup_cons.mp hnd).1
      rw [(egoFold_frame cf hn _).1]
      show ((if u = u then _ else _ : Nat → Option Nat) v).isSome
      rw [if_pos rfl]
      exact clusterFold_map_cover hc
    · exact ih (List.nodup_cons.mp hnd).2 hu' _

theorem egoFold_pers_witness (cf : Nat → List (List Nat)) {l : List Nat} {n : Nat}
    (hnd : l.Nodup) (hn : n ∈ l) (hflat : (cf n).flatten.Nodup) (hne : ∀ c ∈ cf n, c ≠ []) :
    ∀ (st : EgoState) (p : Nat), p ∈ (egoFold cf st l).pers n →
      ∃ v ∈ (cf n).flatten, (egoFold cf st l).comp n v = some p := by
  induction l with
  | nil => simp at hn
  | cons m l ih =>
    intro st p hp
    rw [egoFold_cons] at hp ⊢
    rcases List.mem_cons.mp hn with rfl | hn'
    · have hm : n ∉ l := (List.nodup_cons.mp hnd).1
      rw [(egoFold_frame cf hm _).2, doNode_pers_self] at hp
      rw [List.mem_range'_1] at hp
      obtain ⟨v, hv, hmap⟩ := clusterFold_cluster_witness hflat hne (p - st.index)
        (by omega) (fun _ => none) [] st.index
      have hvf : v ∈ (cf n).flatten :=
        List.mem_flatten.mpr ⟨_, List.get_mem _ _ _, hv⟩
      refine ⟨v, hvf, ?_⟩
      rw [(egoFold_frame cf hm _).1]
      show (if n = n then _ else _ : Nat → Option Nat) v = some p
      rw [if_pos rfl, hmap]
      congr 1
      omega
    · exact ih (List.nodup_cons.mp hnd).2 hn' _ p hp

theorem egoRun_pers_outside (g : Graph) (cf : Nat → List (List Nat)) {u : Nat}
    (hu : u ∉ g.nodes) :
    (egoRun g cf).pers u = [] ∧ ∀ v, (egoRun g cf).comp u v = none := by
  rw [egoRun_eq_egoFold]
  rcases egoFold_frame cf hu initState with ⟨h1, h2⟩
  exact ⟨h2, fun v => by rw [h1]; rfl⟩

theorem egoRun_flat (g : Graph) (cf : Nat → List (List Nat)) (hnd : g.nodes.Nodup) :
    g.nodes.flatMap (egoRun g cf).pers = List.range (egoRun g cf).index := by
  rw [egoRun_eq_egoFold, egoFold_flat cf hnd initState, List.range_eq_range']
  rfl

theorem egoRun_pers_lt (g : Graph) (cf : Nat → List (List Nat)) (hnd : g.nodes.Nodup)
    {n p : Nat} (hn : n ∈ g.nodes) (hp : p ∈ (egoRun g cf).pers n) :
    p < (egoRun g cf).index := by
  have : p ∈ g.nodes.flatMap (egoRun g cf).pers := List.mem_flatMap.mpr ⟨n, hn, hp⟩
  rw [egoRun_flat g cf hnd] at this
  exact List.mem_range.mp this

theorem egoRun_pers_complete (g : Graph) (cf : Nat → List (List Nat)) (hnd : g.nodes.Nodup)
    {p : Nat} (hp : p < (egoRun g cf).index) :
    ∃ n ∈ g.nodes, p ∈ (egoRun g cf).pers n := by
  have : p ∈ g.nodes.flatMap (egoRun g cf).pers := by
    rw [egoRun_flat g cf hnd]
    exact List.mem_range.mpr hp
  exact List.mem_flatMap.mp this

theorem egoRun_owner_unique (g : Graph) (cf : Nat → List (List Nat)) (hnd : g.nodes.Nodup)
    {u v p : Nat} (hu : u ∈ g.nodes) (hv : v ∈ g.nodes)
    (hpu : p ∈ (egoRun g cf).pers u) (hpv : p ∈ (egoRun g cf).pers v) : u = v := by
  by_contra hne
  have hflat : (g.nodes.flatMap (egoRun g cf).pers).Nodup := by
    rw [egoRun_flat g cf hnd]
    exact List.nodup_range _
  rw [List.flatMap_def] at hflat
  have hpair := (List.nodup_flatten.mp hflat).2
  rw [List.pairwise_map] at hpair
  have hdis := hpair.forall
    (fun a b (hab : List.Disjoint _ _) => List.Disjoint.symm hab) hu hv hne
  exact hdis hpu hpv

theorem egoRun_pers_nodup (g : Graph) (cf : Nat → List (List Nat)) (hnd : g.nodes.Nodup)
    (n : Nat) : ((egoRun g cf).pers n).Nodup := by
  by_cases hn : n ∈ g.nodes
  · have hflat : (g.nodes.flatMap (egoRun g cf).pers).Nodup := by
      rw [egoRun_flat g cf hnd]
      exact List.nodup_range _
    rw [List.flatMap_def] at hflat
    exact (List.nodup_flatten.mp hflat).1 _ (List.mem_map_of_mem _ hn)
  · rw [(egoRun_pers_outside g cf hn).1]
    exact List.nodup_nil

/-! ### The dict comprehension of `_map_personalities` -/

theorem personalityMap_eq (g : Graph) (st : EgoState) :
    personalityMap g st = g.nodes.foldl (pmapStep st) (fun _ => none) := rfl

theorem pmapStep_eval (st : EgoState) (n : Nat) (acc : Nat → Option Nat) (q : Nat) :
    pmapStep st acc n q = if q ∈ st.pers n then some n else acc q := by
  unfold pmapStep
  generalize st.pers n = ps
  induction ps generalizing acc with
  | nil => simp
  | cons p ps ih =>
    rw [List.foldl_cons, ih]
    by_cases hq : q ∈ ps
    · simp [hq, List.mem_cons]
    · simp only [if_neg hq]
      by_cases hqp : q = p <;> simp [hqp, hq, List.mem_cons]

theorem pmapFold_some_inv (st : EgoState) :
    ∀ (l : List Nat) (acc : Nat → Option Nat) (p n : Nat),
      (l.foldl (pmapStep st) acc) p = some n → acc p = some n ∨ (n ∈ l ∧ p ∈ st.pers n) := by
  intro l
  induction l with
  | nil => intro acc p n h; exact Or.inl h
  | cons m l ih =>
    intro acc p n h
    rw [List.foldl_cons] at h
    rcases ih _ p n h with h1 | h1
    · rw [pmapStep_eval] at h1
      by_cases hp : p ∈ st.pers m
      · rw [if_pos hp, Option.some.injEq] at h1
        exact Or.inr ⟨h1 ▸ List.mem_cons_self _ _, h1 ▸ hp⟩
      · rw [if_neg hp] at h1
        exact Or.inl h1
    · exact Or.inr ⟨List.mem_cons_of_mem _ h1.1, h1.2⟩

theorem pmapFold_preserve (st : EgoState) {p n : Nat} :
    ∀ (l : List Nat) (acc : Nat → Option Nat),
      (∀ n' ∈ l, p ∈ st.pers n' → n' = n) → acc p = some n →
      (l.foldl (pmapStep st) acc) p = some n := by
  intro l
  induction l with
  | nil => intro acc _ h; exact h
  | cons m l ih =>
    intro acc huniq h
    rw [List.foldl_cons]
    refine ih _ (fun n' hn' => huniq n' (List.mem_cons_of_mem _ hn')) ?_
    rw [pmapStep_eval]
    by_cases hp : p ∈ st.pers m
    · rw [if_pos hp, huniq m (List.mem_cons_self _ _) hp]
    · rw [if_neg hp]
      exact h

theorem pmapFold_write (st : EgoState) {p n : Nat} :
    ∀ (l : List Nat) (acc : Nat → Option Nat), n ∈ l → p ∈ st.pers n →
      (∀ n' ∈ l, p ∈ st.pers n' → n' = n) →
      (l.foldl (pmapStep st) acc) p = some n := by
  intro l
  induction l with
  | nil => intro acc h; simp at h
  | cons m l ih =>
    intro acc hn hp huniq
    rw [List.foldl_cons]
    rcases List.mem_cons.mp hn with rfl | hn'
    · refine pmapFold_preserve st l _ (fun n' hn' => huniq n' (List.mem_cons_of_mem _ hn')) ?_
      rw [pmapStep_eval, if_pos hp]
    · exact ih _ hn' hp (fun n' hn'' => huniq n' (List.mem_cons_of_mem _ hn''))

theorem personalityMap_some_inv (g : Graph) (st : EgoState) {p n : Nat}
    (h : personalityMap g st p = some n) : n ∈ g.nodes ∧ p ∈ st.pers n := by
  rw [personalityMap_eq] at h
  rcases pmapFold_some_inv st g.nodes _ p n h with h1 | h1
  · exact absurd h1 (by simp)
  · exact h1

theorem personalityMap_eval (g : Graph) (st : EgoState) {p n : Nat} (hn : n ∈ g.nodes)
    (hp : p ∈ st.pers n) (huniq : ∀ n' ∈ g.nodes, p ∈ st.pers n' → n' = n) :
    personalityMap g st p = some n := by
  rw [personalityMap_eq]
  exact pmapFold_write st g.nodes _ hn hp huniq

theorem egoRun_pmap (g : Graph) (cf : Nat → List (List Nat)) (hnd : g.nodes.Nodup)
    {p n : Nat} (hn : n ∈ g.nodes) (hp : p ∈ (egoRun g cf).pers n) :
    personalityMap g (egoRun g cf) p = some n :=
  personalityMap_eval g _ hn hp
    (fun _ hn' hp' => egoRun_owner_unique g cf hnd hn' hn hp' hp)

theorem egoRun_pmap_none (g : Graph) (cf : Nat → List (List Nat)) (hnd : g.nodes.Nodup)
    {p : Nat} (hp : (egoRun g cf).index ≤ p) :
    personalityMap g (egoRun g cf) p = none := by
  cases h : personalityMap g (egoRun g cf) p with
  | none => rfl
  | some n =>
    rcases personalityMap_some_inv g _ h with ⟨hn, hpn⟩
    exact absurd (egoRun_pers_lt g cf hnd hn hpn) (by omega)

/-! ### Connected-components enumeration -/

theorem bfsCollect_expand (adjS : Nat → List Nat) :
    ∀ (fuel : Nat) (q seen : List Nat), ∃ t, bfsCollect adjS fuel q seen = seen ++ t := by
  intro fuel
  induction fuel with
  | zero => intro q seen; exact ⟨[], by simp [bfsCollect]⟩
  | succ fuel ih =>
    intro q seen
    match q with
    | [] => exact ⟨[], by simp [bfsCollect]⟩
    | u :: queue =>
      by_cases hu : u ∈ seen
      · obtain ⟨t, ht⟩ := ih queue seen
        exact ⟨t, by simp only [bfsCollect, if_pos hu]; exact ht⟩
      · obtain ⟨t, ht⟩ := ih (queue ++ adjS u) (seen ++ [u])
        refine ⟨[u] ++ t, ?_⟩
        simp only [bfsCollect, if_neg hu]
        rw [ht, List.append_assoc]

theorem bfsCollect_nodup (adjS : Nat → List Nat) :
    ∀ (fuel : Nat) (q seen : List Nat), seen.Nodup → (bfsCollect adjS fuel q seen).Nodup := by
  intro fuel
  induction fuel with
  | zero => intro q seen h; exact h
  | succ fuel ih =>
    intro q seen h
    match q with
    | [] => exact h
    | u :: queue =>
      by_cases hu : u ∈ seen
      · simp only [bfsCollect, if_pos hu]
        exact ih queue seen h
      · simp only [bfsCollect, if_neg hu]
        refine ih _ _ ?_
        rw [List.nodup_append]
        exact ⟨h, List.nodup_singleton u, by intro a ha hau; rw [List.mem_singleton] at hau; exact hu (hau ▸ ha)⟩

theorem bfsCollect_mem_or (adjS : Nat → List Nat) (P : Nat → Prop)
    (hadj : ∀ u x, x ∈ adjS u → P x) :
    ∀ (fuel : Nat) (q seen : List Nat), (∀ x ∈ q, P x) →
      ∀ x ∈ bfsCollect adjS fuel q seen, x ∈ seen ∨ P x := by
  intro fuel
  induction fuel with
  | zero => intro q seen _ x hx; exact Or.inl hx
  | succ fuel ih =>
    intro q seen hq x hx
    match q, hq with
    | [], _ => exact Or.inl hx
    | u :: queue, hq =>
      by_cases hu : u ∈ seen
      · simp only [bfsCollect, if_pos hu] at hx
        exact ih queue seen (fun y hy => hq y (List.mem_cons_of_mem _ hy)) x hx
      · simp only [bfsCollect, if_neg hu] at hx
        have hq' : ∀ y ∈ queue ++ adjS u, P y := by
          intro y hy
          rcases List.mem_append.mp hy with hy' | hy'
          · exact hq y (List.mem_cons_of_mem _ hy')
          · exact hadj u y hy'
        rcases ih _ _ hq' x hx with hx' | hx'
        · rcases List.mem_append.mp hx' with hx'' | hx''
          · exact Or.inl hx''
          · rw [List.mem_singleton] at hx''
            exact Or.inr (hx'' ▸ hq u (List.mem_cons_self _ _))
        · exact Or.inr hx'

theorem bfsCollect_start (adjS : Nat → List Nat) {fuel : Nat} (hf : 0 < fuel) (v : Nat)
    (seen : List Nat) (hv : v ∉ seen) : v ∈ bfsCollect adjS fuel [v] seen := by
  match fuel, hf with
  | fuel + 1, _ =>
    simp only [bfsCollect, if_neg hv]
    obtain ⟨t, ht⟩ := bfsCollect_expand adjS fuel (List.nil ++ adjS v) (seen ++ [v])
    rw [ht]
    simp

theorem componentsAux_props (adjS : Nat → List Nat) (fuel : Nat) (hf : 0 < fuel) :
    ∀ (l seen : List Nat), seen.Nodup →
      (seen ++ (componentsAux adjS fuel l seen).flatten).Nodup ∧
      (∀ v ∈ l, v ∈ seen ++ (componentsAux adjS fuel l seen).flatten) := by
  intro l
  induction l with
  | nil =>
    intro seen h
    refine ⟨by simpa [componentsAux] using h, by simp⟩
  | cons v rest ih =>
    intro seen hseen
    by_cases hv : v ∈ seen
    · simp only [componentsAux, if_pos hv]
      rcases ih seen hseen with ⟨h1, h2⟩
      refine ⟨h1, fun w hw => ?_⟩
      rcases List.mem_cons.mp hw with rfl | hw'
      · exact List.mem_append_left _ hv
      · exact h2 w hw'
    · simp only [componentsAux, if_neg hv]
      obtain ⟨t, ht⟩ := bfsCollect_expand adjS fuel [v] seen
      have hnd2 : (bfsCollect adjS fuel [v] seen).Nodup := bfsCollect_nodup adjS fuel [v] seen hseen
      rcases ih (bfsCollect adjS fuel [v] seen) hnd2 with ⟨h1, h2⟩
      have hdrop : (bfsCollect adjS fuel [v] seen).drop seen.length = t := by
        rw [ht]
        exact List.drop_left _ _
      have hre : ∀ (X : List (List Nat)),
          seen ++ ((bfsCollect adjS fuel [v] seen).drop seen.length :: X).flatten
            = bfsCollect adjS fuel [v] seen ++ X.flatten := by
        intro X
        rw [List.flatten_cons, hdrop, ← List.append_assoc, ← ht]
      constructor
      · rw [hre]
        exact h1
      · intro w hw
        rw [hre]
        rcases List.mem_cons.mp hw with rfl | hw'
        · exact List.mem_append_left _ (bfsCollect_start adjS hf w seen hv)
        · exact h2 w hw'

theorem componentsAux_nonempty (adjS : Nat → List Nat) (fuel : Nat) (hf : 0 < fuel) :
    ∀ (l seen : List Nat), ∀ c ∈ componentsAux adjS fuel l seen, c ≠ [] := by
  intro l
  induction l with
  | nil => intro seen c hc; simp [componentsAux] at hc
  | cons v rest ih =>
    intro seen c hc
    by_cases hv : v ∈ seen
    · simp only [componentsAux, if_pos hv] at hc
      exact ih seen c hc
    · simp only [componentsAux, if_neg hv] at hc
      rcases List.mem_cons.mp hc with rfl | hc'
      · obtain ⟨t, ht⟩ := bfsCollect_expand adjS fuel [v] seen
        have hvmem : v ∈ bfsCollect adjS fuel [v] seen := bfsCollect_start adjS hf v seen hv
        rw [ht] at hvmem ⊢
        rw [List.drop_left]
        rcases List.mem_append.mp hvmem with h | h
        · exact absurd h hv
        · intro hnil
          rw [hnil] at h
          simp at h
      · exact ih _ c hc'

theorem componentsAux_subset (adjS : Nat → List Nat) (fuel : Nat) (P : Nat → Prop)
    (hadj : ∀ u x, x ∈ adjS u → P x) :
    ∀ (l seen : List Nat), seen.Nodup → (∀ x ∈ l, P x) →
      ∀ c ∈ componentsAux adjS fuel l seen, ∀ w ∈ c, P w := by
  intro l
  induction l with
  | nil => intro seen _ _ c hc; simp [componentsAux] at hc
  | cons v rest ih =>
    intro seen hseen hl c hc
    by_cases hv : v ∈ seen
    · simp only [componentsAux, if_pos hv] at hc
      exact ih seen hseen (fun x hx => hl x (List.mem_cons_of_mem _ hx)) c hc
    · simp only [componentsAux, if_neg hv] at hc
      obtain ⟨t, ht⟩ := bfsCollect_expand adjS fuel [v] seen
      have hnd2 : (bfsCollect adjS fuel [v] seen).Nodup := bfsCollect_nodup adjS fuel [v] seen hseen
      rcases List.mem_cons.mp hc with rfl | hc'
      · intro w hw
        rw [ht, List.drop_left] at hw
        have hw2 : w ∈ bfsCollect adjS fuel [v] seen := by
          rw [ht]
          exact List.mem_append_right _ hw
        rcases bfsCollect_mem_or adjS P hadj fuel [v] seen
          (by intro x hx; rw [List.mem_singleton] at hx; exact hx ▸ hl v (List.mem_cons_self _ _))
          w hw2 with h | h
        · rw [ht] at hnd2
          exact absurd h ((List.nodup_append.mp hnd2).2.2.symm hw)
        · exact h
      · exact ih _ hnd2 (fun x hx => hl x (List.mem_cons_of_mem _ hx)) c hc'

theorem graphFuel_pos (g : Graph) : 0 < graphFuel g := by
  unfold graphFuel
  exact Nat.mul_pos (by omega) (by omega)

theorem egoComponents_cover (g : Graph) (node : Nat) {v : Nat}
    (hv : v ∈ egoSubNodes g node) : ∃ c ∈ egoComponents g node, v ∈ c := by
  rcases componentsAux_props (egoAdj g node) (graphFuel g) (graphFuel_pos g)
    (egoSubNodes g node) [] List.nodup_nil with ⟨_, h2⟩
  have := h2 v hv
  rw [List.nil_append] at this
  exact List.mem_flatten.mp this

theorem egoComponents_flat_nodup (g : Graph) (node : Nat) :
    (egoComponents g node).flatten.Nodup := by
  rcases componentsAux_props (egoAdj g node) (graphFuel g) (graphFuel_pos g)
    (egoSubNodes g node) [] List.nodup_nil with ⟨h1, _⟩
  rwa [List.nil_append] at h1

theorem egoComponents_nonempty (g : Graph) (node : Nat) :
    ∀ c ∈ egoComponents g node, c ≠ [] :=
  componentsAux_nonempty (egoAdj g node) (graphFuel g) (graphFuel_pos g) (egoSubNodes g node) []

theorem egoComponents_mem_sub (g : Graph) (node : Nat) :
    ∀ c ∈ egoComponents g node, ∀ w ∈ c, w ∈ egoSubNodes g node := by
  refine componentsAux_subset (egoAdj g node) (graphFuel g) _ ?_ (egoSubNodes g node) []
    List.nodup_nil (fun x hx => hx)
  intro u x hx
  unfold egoAdj at hx
  rcases List.mem_filter.mp hx with ⟨_, hx2⟩
  exact of_decide_eq_true hx2

theorem egoSubNodes_mem (g : Graph) (node : Nat) {v : Nat} :
    v ∈ egoSubNodes g node ↔ v ∈ g.nodes ∧ v ∈ g.adj node := by
  unfold egoSubNodes
  rw [List.mem_filter, decide_eq_true_eq]

/-! ### The edge iteration -/

theorem edgesAux_mem (adj : Nat → List Nat) :
    ∀ (l seen : List Nat) (e : Nat × Nat), e ∈ edgesAux adj l seen →
      e.1 ∈ l ∧ e.2 ∈ adj e.1 ∧ e.2 ∉ seen := by
  intro l
  induction l with
  | nil => intro seen e he; simp [edgesAux] at he
  | cons u rest ih =>
    intro seen e he
    simp only [edgesAux] at he
    rcases List.mem_append.mp he with h | h
    · rcases List.mem_map.mp h with ⟨v, hv, rfl⟩
      rcases List.mem_filter.mp hv with ⟨hv1, hv2⟩
      exact ⟨List.mem_cons_self _ _, hv1, of_decide_eq_true hv2⟩
    · rcases ih _ e h with ⟨h1, h2, h3⟩
      exact ⟨List.mem_cons_of_mem _ h1, h2, fun hc => h3 (List.mem_cons_of_mem _ hc)⟩

theorem edgesAux_cover (adj : Nat → List Nat) :
    ∀ (l seen : List Nat), l.Nodup → (∀ x ∈ l, x ∉ seen) →
      ∀ u v, u ∈ l → v ∈ l → v ∈ adj u → u ∈ adj v →
        (u, v) ∈ edgesAux adj l seen ∨ (v, u) ∈ edgesAux adj l seen := by
  intro l
  induction l with
  | nil => intro seen _ _ u v hu; simp at hu
  | cons h rest ih =>
    intro seen hnd hdisj u v hu hv huv hvu
    simp only [edgesAux]
    by_cases hhu : h = u
    · subst hhu
      left
      exact List.mem_append_left _
        (List.mem_map.mpr ⟨v, List.mem_filter.mpr ⟨huv, decide_eq_true (hdisj v hv)⟩, rfl⟩)
    · by_cases hhv : h = v
      · subst hhv
        right
        exact List.mem_append_left _
          (List.mem_map.mpr ⟨u, List.mem_filter.mpr ⟨hvu, decide_eq_true (hdisj u hu)⟩, rfl⟩)
      · have hu' : u ∈ rest := (List.mem_cons.mp hu).resolve_left (fun he => hhu he.symm)
        have hv' : v ∈ rest := (List.mem_cons.mp hv).resolve_left (fun he => hhv he.symm)
        have hdisj' : ∀ x ∈ rest, x ∉ h :: seen := by
          intro x hx hmem
          rcases List.mem_cons.mp hmem with he | he
          · exact (List.nodup_cons.mp hnd).1 (he ▸ hx)
          · exact hdisj x (List.mem_cons_of_mem _ hx) he
        rcases ih (h :: seen) (List.nodup_cons.mp hnd).2 hdisj' u v hu' hv' huv hvu with hc | hc
        · exact Or.inl (List.mem_append_right _ hc)
        · exact Or.inr (List.mem_append_right _ hc)

theorem sameUnordered_symm {a b : Nat × Nat} (h : sameUnordered a b) : sameUnordered b a := by
  rcases h with ⟨h1, h2⟩ | ⟨h1, h2⟩
  · exact Or.inl ⟨h1.symm, h2.symm⟩
  · exact Or.inr ⟨h2.symm, h1.symm⟩

theorem edgesAux_pairwise (adj : Nat → List Nat) :
    ∀ (l seen : List Nat), l.Nodup → (∀ u ∈ l, (adj u).Nodup) →
      (edgesAux adj l seen).Pairwise (fun e e' => ¬ sameUnordered e e') := by
  intro l
  induction l with
  | nil => intro seen _ _; simp [edgesAux]
  | cons u rest ih =>
    intro seen hnd hadj
    simp only [edgesAux]
    rw [List.pairwise_append]
    refine ⟨?_, ih _ (List.nodup_cons.mp hnd).2 (fun w hw => hadj w (List.mem_cons_of_mem _ hw)), ?_⟩
    · rw [List.pairwise_map]
      have hfil : ((adj u).filter (fun v => decide (v ∉ seen))).Nodup :=
        (hadj u (List.mem_cons_self _ _)).filter _
      refine List.Pairwise.imp ?_ hfil
      intro v1 v2 hne hsame
      rcases hsame with ⟨_, h2⟩ | ⟨h1, h2⟩
      · exact hne h2
      · exact hne (h2.trans h1)
    · intro a ha b hb
      rcases List.mem_map.mp ha with ⟨v, _, rfl⟩
      have hb' := edgesAux_mem adj rest (u :: seen) b hb
      intro hsame
      rcases hsame with ⟨h1, _⟩ | ⟨h1, _⟩
      · refine (List.nodup_cons.mp hnd).1 ?_
        have : (u, v).1 ∈ rest := h1.symm ▸ hb'.1
        exact this
      · refine hb'.2.2 ?_
        have : (u, v).1 ∈ u :: seen := List.mem_cons_self _ _
        exact h1 ▸ this

theorem edgeList_mem (g : Graph) {e : Nat × Nat} (he : e ∈ edgeList g) :
    e.1 ∈ g.nodes ∧ e.2 ∈ g.adj e.1 := by
  rcases edgesAux_mem g.adj g.nodes [] e he with ⟨h1, h2, _⟩
  exact ⟨h1, h2⟩

theorem edgeList_cover (g : Graph) (hWF : g.WF) {u v : Nat} (hu : u ∈ g.nodes)
    (hv : v ∈ g.nodes) (huv : v ∈ g.adj u) (hvu : u ∈ g.adj v) :
    (u, v) ∈ edgeList g ∨ (v, u) ∈ edgeList g :=
  edgesAux_cover g.adj g.nodes [] hWF.1 (by simp) u v hu hv huv hvu

theorem edgeList_pairwise (g : Graph) (hWF : g.WF) :
    (edgeList g).Pairwise (fun e e' => ¬ sameUnordered e e') :=
  edgesAux_pairwise g.adj g.nodes [] hWF.1 hWF.2.1

/-! ### Inversion of the `Except` monad operations -/

theorem exceptBind_ok {α β : Type} {x : Except PyError α} {f : α → Except PyError β} {b : β}
    (h : x >>= f = .ok b) : ∃ a, x = .ok a ∧ f a = .ok b := by
  cases x with
  | error e => exact absurd h (by simp [Bind.bind, Except.bind])
  | ok a => exact ⟨a, rfl, by simpa [Bind.bind, Except.bind] using h⟩

theorem exceptOk_bind {α β : Type} {x : Except PyError α} (f : α → Except PyError β) {a : α}
    (h : x = .ok a) : x >>= f = f a := by
  rw [h]
  simp [Bind.bind, Except.bind]

theorem mapM_ok_cons {α β : Type} {f : α → Except PyError β} {x : α} {xs : List α}
    {ys : List β} (h : (x :: xs).mapM f = .ok ys) :
    ∃ y ys', f x = .ok y ∧ xs.mapM f = .ok ys' ∧ ys = y :: ys' := by
  rw [List.mapM_cons] at h
  obtain ⟨y, hy, h2⟩ := exceptBind_ok h
  obtain ⟨ys', hys', h3⟩ := exceptBind_ok h2
  refine ⟨y, ys', hy, hys', ?_⟩
  have : (y :: ys' : List β) = ys := by
    simpa [Pure.pure, Except.pure] using h3
  exact this.symm

theorem mapM_ok_get {α β : Type} {f : α → Except PyError β} :
    ∀ {xs : List α} {ys : List β}, xs.mapM f = .ok ys →
      ys.length = xs.length ∧
      ∀ (i : Nat) (hi : i < xs.length) (hi' : i < ys.length),
        f (xs.get ⟨i, hi⟩) = .ok (ys.get ⟨i, hi'⟩) := by
  intro xs
  induction xs with
  | nil =>
    intro ys h
    rw [List.mapM_nil] at h
    have : ([] : List β) = ys := by simpa [Pure.pure, Except.pure] using h
    subst this
    exact ⟨rfl, fun i hi => by simp at hi⟩
  | cons x xs ih =>
    intro ys h
    obtain ⟨y, ys', hfy, hys', rfl⟩ := mapM_ok_cons h
    rcases ih hys' with ⟨hlen, hget⟩
    refine ⟨by simp [hlen], ?_⟩
    intro i hi hi'
    match i with
    | 0 => exact hfy
    | i + 1 => exact hget i (by simpa using hi) (by simpa using hi')

theorem mapM_ok_mem {α β : Type} {f : α → Except PyError β} :
    ∀ {xs : List α} {ys : List β}, xs.mapM f = .ok ys →
      ∀ x ∈ xs, ∃ y ∈ ys, f x = .ok y := by
  intro xs
  induction xs with
  | nil => intro ys _ x hx; simp at hx
  | cons x' xs ih =>
    intro ys h x hx
    obtain ⟨y, ys', hfy, hys', rfl⟩ := mapM_ok_cons h
    rcases List.mem_cons.mp hx with rfl | hx'
    · exact ⟨y, List.mem_cons_self _ _, hfy⟩
    · obtain ⟨y', hy', hfy'⟩ := ih hys' x hx'
      exact ⟨y', List.mem_cons_of_mem _ hy', hfy'⟩

theorem mapM_ok_mem_rev {α β : Type} {f : α → Except PyError β} :
    ∀ {xs : List α} {ys : List β}, xs.mapM f = .ok ys →
      ∀ y ∈ ys, ∃ x ∈ xs, f x = .ok y := by
  intro xs
  induction xs with
  | nil =>
    intro ys h y hy
    rw [List.mapM_nil] at h
    have : ([] : List β) = ys := by simpa [Pure.pure, Except.pure] using h
    subst this
    simp at hy
  | cons x xs ih =>
    intro ys h y hy
    obtain ⟨y', ys', hfy, hys', rfl⟩ := mapM_ok_cons h
    rcases List.mem_cons.mp hy with rfl | hy'
    · exact ⟨x, List.mem_cons_self _ _, hfy⟩
    · obtain ⟨x', hx', hfx'⟩ := ih hys' y hy'
      exact ⟨x', List.mem_cons_of_mem _ hx', hfx'⟩

theorem mapM_ok_of_forall {α β : Type} {f : α → Except PyError β} :
    ∀ {xs : List α}, (∀ x ∈ xs, ∃ y, f x = .ok y) → ∃ ys, xs.mapM f = .ok ys := by
  intro xs
  induction xs with
  | nil => intro _; exact ⟨[], List.mapM_nil f⟩
  | cons x xs ih =>
    intro h
    obtain ⟨y, hy⟩ := h x (List.mem_cons_self _ _)
    obtain ⟨ys, hys⟩ := ih (fun x' hx' => h x' (List.mem_cons_of_mem _ hx'))
    refine ⟨y :: ys, ?_⟩
    rw [List.mapM_cons, exceptOk_bind _ hy, exceptOk_bind _ hys]
    rfl

theorem mapM_error_shape {α β : Type} {f : α → Except PyError β} :
    ∀ {xs : List α} {er : PyError}, xs.mapM f = .error er → ∃ x ∈ xs, f x = .error er := by
  intro xs
  induction xs with
  | nil => intro er h; rw [List.mapM_nil] at h; exact absurd h (by simp [Pure.pure, Except.pure])
  | cons x xs ih =>
    intro er h
    rw [List.mapM_cons] at h
    cases hfx : f x with
    | error e =>
      rw [hfx] at h
      have : e = er := by simpa [Bind.bind, Except.bind] using h
      exact ⟨x, List.mem_cons_self _ _, this ▸ hfx⟩
    | ok y =>
      rw [exceptOk_bind _ hfx] at h
      cases hxs : xs.mapM f with
      | error e =>
        rw [hxs] at h
        have : e = er := by simpa [Bind.bind, Except.bind] using h
        obtain ⟨x', hx', hfx'⟩ := ih (this ▸ hxs)
        exact ⟨x', List.mem_cons_of_mem _ hx', hfx'⟩
      | ok ys =>
        rw [exceptOk_bind _ hxs] at h
        exact absurd h (by simp [Pure.pure, Except.pure])

/-! ### The persona graph of `nx.from_edgelist` -/

theorem pgNodes_eq (pes : List PersonaEdge) : pgNodes pes = pes.foldl pgStep [] := rfl

theorem addNode_mem_of {acc : List Nat} {x : Nat} (v : Nat) (h : x ∈ acc) :
    x ∈ addNode acc v := by
  unfold addNode
  split <;> simp [h]

theorem addNode_self (acc : List Nat) (v : Nat) : v ∈ addNode acc v := by
  unfold addNode
  split
  · assumption
  · simp

theorem addNode_inv {acc : List Nat} {x v : Nat} (h : x ∈ addNode acc v) :
    x ∈ acc ∨ x = v := by
  unfold addNode at h
  split at h
  · exact Or.inl h
  · rcases List.mem_append.mp h with h1 | h1
    · exact Or.inl h1
    · exact Or.inr (List.mem_singleton.mp h1)

theorem pgStep_mem_of {acc : List Nat} {x : Nat} (e : PersonaEdge) (h : x ∈ acc) :
    x ∈ pgStep acc e :=
  addNode_mem_of _ (addNode_mem_of _ h)

theorem pgStep_self (acc : List Nat) (e : PersonaEdge) :
    e.pu ∈ pgStep acc e ∧ e.pv ∈ pgStep acc e :=
  ⟨addNode_mem_of _ (addNode_self acc e.pu), addNode_self _ e.pv⟩

theorem pgStep_inv {acc : List Nat} {x : Nat} {e : PersonaEdge} (h : x ∈ pgStep acc e) :
    x ∈ acc ∨ x = e.pu ∨ x = e.pv := by
  rcases addNode_inv h with h1 | h1
  · rcases addNode_inv h1 with h2 | h2
    · exact Or.inl h2
    · exact Or.inr (Or.inl h2)
  · exact Or.inr (Or.inr h1)

theorem pgFold_mono {x : Nat} :
    ∀ (pes : List PersonaEdge) (acc : List Nat), x ∈ acc → x ∈ pes.foldl pgStep acc := by
  intro pes
  induction pes with
  | nil => intro acc h; exact h
  | cons e pes ih => intro acc h; exact ih _ (pgStep_mem_of e h)

theorem pgNodes_mem_of :
    ∀ (pes : List PersonaEdge) (acc : List Nat), ∀ e ∈ pes,
      e.pu ∈ pes.foldl pgStep acc ∧ e.pv ∈ pes.foldl pgStep acc := by
  intro pes
  induction pes with
  | nil => intro acc e he; simp at he
  | cons e' pes ih =>
    intro acc e he
    rcases List.mem_cons.mp he with rfl | he'
    · exact ⟨pgFold_mono pes _ (pgStep_self acc e).1, pgFold_mono pes _ (pgStep_self acc e).2⟩
    · exact ih _ e he'

theorem pgNodes_sub :
    ∀ (pes : List PersonaEdge) (acc : List Nat) (x : Nat), x ∈ pes.foldl pgStep acc →
      x ∈ acc ∨ ∃ e ∈ pes, x = e.pu ∨ x = e.pv := by
  intro pes
  induction pes with
  | nil => intro acc x h; exact Or.inl h
  | cons e pes ih =>
    intro acc x h
    rcases ih _ x h with h1 | ⟨e', he', h1⟩
    · rcases pgStep_inv h1 with h2 | h2
      · exact Or.inl h2
      · exact Or.inr ⟨e, List.mem_cons_self _ _, h2⟩
    · exact Or.inr ⟨e', List.mem_cons_of_mem _ he', h1⟩

theorem pgEdgePairs_eq (pes : List PersonaEdge) : pgEdgePairs pes = pes.foldl pgeStep [] := rfl

theorem pgeFold_len :
    ∀ (pes : List PersonaEdge) (acc : List (Nat × Nat)),
      (∀ q ∈ acc, ∀ e ∈ pes, ¬ sameUnordered q (e.pu, e.pv)) →
      pes.Pairwise (fun e e' => ¬ sameUnordered (e.pu, e.pv) (e'.pu, e'.pv)) →
      (pes.foldl pgeStep acc).length = acc.length + pes.length := by
  intro pes
  induction pes with
  | nil => intro acc _ _; simp
  | cons e pes ih =>
    intro acc hacc hpair
    have hany : acc.any (fun q => decide (sameUnordered q (e.pu, e.pv))) = false := by
      rw [← Bool.not_eq_true, List.any_eq_true]
      rintro ⟨q, hq, hdec⟩
      exact hacc q hq e (List.mem_cons_self _ _) (of_decide_eq_true hdec)
    have hstep : pgeStep acc e = acc ++ [(e.pu, e.pv)] := by
      unfold pgeStep
      rw [hany]
      simp
    rw [List.foldl_cons, hstep, ih _ ?_ (List.pairwise_cons.mp hpair).2]
    · simp
      omega
    · intro q hq e' he'
      rcases List.mem_append.mp hq with h1 | h1
      · exact hacc q h1 e' (List.mem_cons_of_mem _ he')
      · rw [List.mem_singleton] at h1
        subst h1
        exact (List.pairwise_cons.mp hpair).1 e' he'

/-! ### The aggregation loop of `_create_partitions` -/

theorem buildFold_eval (pmap : Nat → Option Nat) (S : List Nat) :
    ∀ (parts : List (Nat × Int)) (m0 : Nat → Option (List Int)) (f0 : Nat → List Int),
      (∀ x, m0 x = if x ∈ S then some (f0 x) else none) →
      (∀ pc ∈ parts, ∃ ow ∈ S, pmap pc.1 = some ow) →
      ∃ m, parts.foldlM
          (fun acc pc =>
            match pmap pc.1 with
            | none => Except.error PyError.keyError
            | some ow =>
              match acc ow with
              | none => Except.error PyError.keyError
              | some l => Except.ok (fun x => if x = ow then some (l ++ [pc.2]) else acc x))
          m0 = .ok m ∧
        ∀ x, m x = if x ∈ S then
            some (f0 x ++ (parts.filter (fun pc => decide (pmap pc.1 = some x))).map Prod.snd)
          else none := by
  intro parts
  induction parts with
  | nil =>
    intro m0 f0 hm0 _
    refine ⟨m0, rfl, ?_⟩
    intro x
    rw [hm0 x]
    by_cases hx : x ∈ S <;> simp [hx]
  | cons pc parts ih =>
    intro m0 f0 hm0 hok
    obtain ⟨ow, howS, how⟩ := hok pc (List.mem_cons_self _ _)
    have hm0ow : m0 ow = some (f0 ow) := by rw [hm0 ow, if_pos howS]
    have hcond : ∀ x, (fun x => if x = ow then some (f0 ow ++ [pc.2]) else m0 x) x
        = if x ∈ S then some ((fun x => if x = ow then f0 ow ++ [pc.2] else f0 x) x) else none := by
      intro x
      by_cases hxo : x = ow
      · subst hxo
        simp [howS]
      · simp only [if_neg hxo, hm0 x]
    obtain ⟨m, hm, heval⟩ := ih
      (fun x => if x = ow then some (f0 ow ++ [pc.2]) else m0 x)
      (fun x => if x = ow then f0 ow ++ [pc.2] else f0 x)
      hcond (fun pc' hpc' => hok pc' (List.mem_cons_of_mem _ hpc'))
    refine ⟨m, ?_, ?_⟩
    · rw [List.foldlM_cons]
      simp only [how, hm0ow]
      rw [exceptOk_bind _ rfl]
      exact hm
    · intro x
      rw [heval x]
      by_cases hx : x ∈ S
      · simp only [if_pos hx]
        congr 1
        rw [List.filter_cons]
        by_cases hxo : x = ow
        · subst hxo
          rw [how]
          simp
        · have hdec : (decide (pmap pc.1 = some x)) = false := by
            rw [decide_eq_false_iff_not, how]
            intro hc
            exact hxo (Option.some.injEq _ _ ▸ hc).symm
          rw [hdec]
          simp [hxo]
      · simp only [if_neg hx]

theorem buildMemberships_eval (g : Graph) (parts : List (Nat × Int)) (pmap : Nat → Option Nat)
    (hok : ∀ pc ∈ parts, ∃ ow ∈ g.nodes, pmap pc.1 = some ow) :
    ∃ m, buildMemberships g parts pmap = .ok m ∧
      ∀ x, m x = if x ∈ g.nodes then
          some ((parts.filter (fun pc => decide (pmap pc.1 = some x))).map Prod.snd)
        else none := by
  obtain ⟨m, hm, heval⟩ := buildFold_eval pmap g.nodes parts
    (fun x => if x ∈ g.nodes then some [] else none) (fun _ => []) (fun _ => rfl) hok
  exact ⟨m, hm, fun x => by simpa using heval x⟩

theorem buildFold_someIff (pmap : Nat → Option Nat) :
    ∀ (parts : List (Nat × Int)) (m0 : Nat → Option (List Int))
      (m : Nat → Option (List Int)) (S : List Nat),
      (∀ x, (m0 x).isSome ↔ x ∈ S) →
      parts.foldlM
          (fun acc pc =>
            match pmap pc.1 with
            | none => Except.error PyError.keyError
            | some ow =>
              match acc ow with
              | none => Except.error PyError.keyError
              | some l => Except.ok (fun x => if x = ow then some (l ++ [pc.2]) else acc x))
          m0 = .ok m →
      ∀ x, (m x).isSome ↔ x ∈ S := by
  intro parts
  induction parts with
  | nil =>
    intro m0 m S hm0 h x
    have : m0 = m := by simpa [Pure.pure, Except.pure] using h
    exact this ▸ hm0 x
  | cons pc parts ih =>
    intro m0 m S hm0 h x
    rw [List.foldlM_cons] at h
    cases hpm : pmap pc.1 with
    | none => simp only [hpm] at h; exact absurd h (by simp [Bind.bind, Except.bind])
    | some ow =>
      simp only [hpm] at h
      cases hacc : m0 ow with
      | none => simp only [hacc] at h; exact absurd h (by simp [Bind.bind, Except.bind])
      | some l =>
        simp only [hacc] at h
        have h' : parts.foldlM
            (fun (acc : Nat → Option (List Int)) (pc : Nat × Int) =>
              match pmap pc.1 with
              | none => Except.error PyError.keyError
              | some ow =>
                match acc ow with
                | none => Except.error PyError.keyError
                | some l => Except.ok (fun x => if x = ow then some (l ++ [pc.2]) else acc x))
            (fun x => if x = ow then some (l ++ [pc.2]) else m0 x) = Except.ok m := by
          simpa [Bind.bind, Except.bind] using h
        refine ih _ m S ?_ h' x
        intro y
        by_cases hy : y = ow
        · subst hy
          simp only [if_pos rfl, Option.isSome_some, true_iff]
          rw [← hm0 y, hacc]
          rfl
        · rw [if_neg hy]
          exact hm0 y

theorem buildMemberships_domain (g : Graph) (parts : List (Nat × Int))
    (pmap : Nat → Option Nat) {m : Nat → Option (List Int)}
    (h : buildMemberships g parts pmap = .ok m) :
    ∀ x, (m x).isSome ↔ x ∈ g.nodes := by
  refine buildFold_someIff pmap parts _ m g.nodes ?_ h
  intro x
  by_cases hx : x ∈ g.nodes <;> simp [hx]

theorem buildFold_const (pmap : Nat → Option Nat) {n : Nat} :
    ∀ (parts : List (Nat × Int)) (m0 m : Nat → Option (List Int)),
      (∀ pc ∈ parts, pmap pc.1 ≠ some n) →
      parts.foldlM
          (fun acc pc =>
            match pmap pc.1 with
            | none => Except.error PyError.keyError
            | some ow =>
              match acc ow with
              | none => Except.error PyError.keyError
              | some l => Except.ok (fun x => if x = ow then some (l ++ [pc.2]) else acc x))
          m0 = .ok m →
      m n = m0 n := by
  intro parts
  induction parts with
  | nil =>
    intro m0 m _ h
    have : m0 = m := by simpa [Pure.pure, Except.pure] using h
    rw [this]
  | cons pc parts ih =>
    intro m0 m hno h
    rw [List.foldlM_cons] at h
    cases hpm : pmap pc.1 with
    | none => simp only [hpm] at h; exact absurd h (by simp [Bind.bind, Except.bind])
    | some ow =>
      simp only [hpm] at h
      cases hacc : m0 ow with
      | none => simp only [hacc] at h; exact absurd h (by simp [Bind.bind, Except.bind])
      | some l =>
        simp only [hacc] at h
        have h' : parts.foldlM
            (fun (acc : Nat → Option (List Int)) (pc : Nat × Int) =>
              match pmap pc.1 with
              | none => Except.error PyError.keyError
              | some ow =>
                match acc ow with
                | none => Except.error PyError.keyError
                | some l => Except.ok (fun x => if x = ow then some (l ++ [pc.2]) else acc x))
            (fun x => if x = ow then some (l ++ [pc.2]) else m0 x) = Except.ok m := by
          simpa [Bind.bind, Except.bind] using h
        have hown : ow ≠ n := fun he =>
          hno pc (List.mem_cons_self _ _) (by rw [hpm, he])
        have := ih _ m (fun pc' hpc' => hno pc' (List.mem_cons_of_mem _ hpc')) h'
        rw [this, if_neg (fun he : n = ow => hown he.symm)]

theorem buildMemberships_const (g : Graph) (parts : List (Nat × Int))
    (pmap : Nat → Option Nat) {m : Nat → Option (List Int)} {n : Nat}
    (hno : ∀ pc ∈ parts, pmap pc.1 ≠ some n)
    (h : buildMemberships g parts pmap = .ok m) (hn : n ∈ g.nodes) :
    m n = some [] := by
  have := buildFold_const pmap parts _ m hno h
  rw [this, if_pos hn]

/-! ### Assembly for the `'components'` strategy -/

theorem localClusters_components (g : Graph) (n : Nat) :
    localClusters g (.name "components") n = .ok (egoComponents g n) := rfl

theorem egonetsFoldM (g : Graph) : ∀ (l : List Nat) (st : EgoState),
    (l.foldlM
      (fun st n => (localClusters g (.name "components") n).map (fun cs => doNode cs st n))
      st : Except PyError EgoState)
      = .ok (l.foldl (fun st n => doNode (egoComponents g n) st n) st) := by
  intro l
  induction l with
  | nil => intro st; rfl
  | cons n l ih =>
    intro st
    rw [List.foldlM_cons, localClusters_components, List.foldl_cons]
    rw [exceptOk_bind _ (rfl :
      (Except.ok (egoComponents g n)).map (fun cs => doNode cs st n)
        = .ok (doNode (egoComponents g n) st n))]
    exact ih _

theorem createEgonets_components (g : Graph) :
    createEgonets g (.name "components") = .ok (egoRunC g) := by
  unfold createEgonets egoRunC egoRun
  exact egonetsFoldM g g.nodes initState

theorem getNewEdgeIds_ok (g : Graph) (w : Bool) (st : EgoState) (e : Nat × Nat) {pu pv : Nat}
    (h1 : st.comp e.1 e.2 = some pu) (h2 : st.comp e.2 e.1 = some pv) :
    getNewEdgeIds g w st e = .ok ⟨pu, pv, if w then g.wAttr e.1 e.2 else none⟩ := by
  unfold getNewEdgeIds
  simp only [h1, h2]

theorem getNewEdgeIds_ok_inv {g : Graph} {w : Bool} {st : EgoState} {e : Nat × Nat}
    {pe : PersonaEdge} (h : getNewEdgeIds g w st e = .ok pe) :
    st.comp e.1 e.2 = some pe.pu ∧ st.comp e.2 e.1 = some pe.pv ∧
      pe.w = (if w then g.wAttr e.1 e.2 else none) := by
  unfold getNewEdgeIds at h
  cases h1 : st.comp e.1 e.2 with
  | none =>
    simp only [h1] at h
    exact Except.noConfusion h
  | some pu =>
    cases h2 : st.comp e.2 e.1 with
    | none =>
      simp only [h1, h2] at h
      exact Except.noConfusion h
    | some pv =>
      simp only [h1, h2, Except.ok.injEq] at h
      subst h
      exact ⟨rfl, rfl, rfl⟩

theorem getNewEdgeIds_error {g : Graph} {w : Bool} {st : EgoState} {e : Nat × Nat}
    {er : PyError} (h : getNewEdgeIds g w st e = .error er) : er = .keyError := by
  unfold getNewEdgeIds at h
  cases h1 : st.comp e.1 e.2 with
  | none => simp only [h1, Except.error.injEq] at h; exact h.symm
  | some pu =>
    cases h2 : st.comp e.2 e.1 with
    | none => simp only [h1, h2, Except.error.injEq] at h; exact h.symm
    | some pv =>
      simp only [h1, h2] at h
      exact Except.noConfusion h

theorem egoRunC_comp_cover (g : Graph) (hWF : g.WF) {u v : Nat} (hu : u ∈ g.nodes)
    (hv : v ∈ g.adj u) : ((egoRunC g).comp u v).isSome := by
  have hvn : v ∈ g.nodes := (hWF.2.2 u hu v hv).1
  have hsub : v ∈ egoSubNodes g u := (egoSubNodes_mem g u).mpr ⟨hvn, hv⟩
  have hc := egoComponents_cover g u hsub
  unfold egoRunC
  rw [egoRun_eq_egoFold]
  exact egoFold_comp_cover (egoComponents g) hWF.1 hu hc initState

theorem edge_lookups_ok (g : Graph) (hWF : g.WF) {e : Nat × Nat} (he : e ∈ edgeList g) :
    ((egoRunC g).comp e.1 e.2).isSome ∧ ((egoRunC g).comp e.2 e.1).isSome := by
  rcases edgeList_mem g he with ⟨h1, h2⟩
  rcases hWF.2.2 e.1 h1 e.2 h2 with ⟨h3, h4, _⟩
  exact ⟨egoRunC_comp_cover g hWF h1 h2, egoRunC_comp_cover g hWF h3 h4⟩

theorem personaGraphEdges_ok (g : Graph) (hWF : g.WF) (w : Bool) :
    ∃ pes, personaGraphEdges g w (egoRunC g) = .ok pes := by
  apply mapM_ok_of_forall
  intro e he
  rcases edge_lookups_ok g hWF he with ⟨h1, h2⟩
  rcases Option.isSome_iff_exists.mp h1 with ⟨pu, hpu⟩
  rcases Option.isSome_iff_exists.mp h2 with ⟨pv, hpv⟩
  exact ⟨_, getNewEdgeIds_ok g w _ e hpu hpv⟩

theorem personaGraphEdges_miss (g : Graph) (w : Bool) (st : EgoState)
    (h : ∃ e ∈ edgeList g, st.comp e.1 e.2 = none ∨ st.comp e.2 e.1 = none) :
    personaGraphEdges g w st = .error .keyError := by
  obtain ⟨e, he, hmiss⟩ := h
  cases hm : personaGraphEdges g w st with
  | ok pes =>
    obtain ⟨pe, _, hok⟩ := mapM_ok_mem hm e he
    rcases getNewEdgeIds_ok_inv hok with ⟨h1, h2, _⟩
    rcases hmiss with hmiss | hmiss
    · rw [h1] at hmiss; cases hmiss
    · rw [h2] at hmiss; cases hmiss
  | error er =>
    obtain ⟨x, _, hfx⟩ := mapM_error_shape hm
    rw [getNewEdgeIds_error hfx]

theorem personaEdges_owned (g : Graph) (hWF : g.WF) (cf : Nat → List (List Nat)) {w : Bool}
    {pes : List PersonaEdge} (hok : personaGraphEdges g w (egoRun g cf) = .ok pes)
    {pe : PersonaEdge} (hpe : pe ∈ pes) :
    ∃ e ∈ edgeList g, e.1 ∈ g.nodes ∧ e.2 ∈ g.nodes ∧
      pe.pu ∈ (egoRun g cf).pers e.1 ∧ pe.pv ∈ (egoRun g cf).pers e.2 := by
  obtain ⟨e, he, hfe⟩ := mapM_ok_mem_rev hok pe hpe
  rcases getNewEdgeIds_ok_inv hfe with ⟨h1, h2, _⟩
  rcases edgeList_mem g he with ⟨hn1, hn2⟩
  exact ⟨e, he, hn1, (hWF.2.2 e.1 hn1 e.2 hn2).1,
    egoRun_comp_pers g cf h1, egoRun_comp_pers g cf h2⟩

theorem pgNodes_are_personas (g : Graph) (hWF : g.WF) (cf : Nat → List (List Nat)) {w : Bool}
    {pes : List PersonaEdge} (hok : personaGraphEdges g w (egoRun g cf) = .ok pes) :
    ∀ x ∈ pgNodes pes, ∃ n ∈ g.nodes, x ∈ (egoRun g cf).pers n := by
  intro x hx
  rw [pgNodes_eq] at hx
  rcases pgNodes_sub pes [] x hx with h | ⟨e, he, hcase⟩
  · simp at h
  · obtain ⟨ed, _, hn1, hn2, hu, hv⟩ := personaEdges_owned g hWF cf hok he
    rcases hcase with rfl | rfl
    · exact ⟨ed.1, hn1, hu⟩
    · exact ⟨ed.2, hn2, hv⟩

theorem egoRunC_pers_in_pgNodes (g : Graph) (hWF : g.WF) {w : Bool}
    {pes : List PersonaEdge} (hok : personaGraphEdges g w (egoRunC g) = .ok pes)
    {n p : Nat} (hn : n ∈ g.nodes) (hp : p ∈ (egoRunC g).pers n) : p ∈ pgNodes pes := by
  have hwit : ∃ v ∈ (egoComponents g n).flatten, (egoRunC g).comp n v = some p := by
    unfold egoRunC at hp ⊢
    rw [egoRun_eq_egoFold] at hp ⊢
    exact egoFold_pers_witness (egoComponents g) hWF.1 hn
      (egoComponents_flat_nodup g n) (egoComponents_nonempty g n) initState p hp
  obtain ⟨v, hvf, hcomp⟩ := hwit
  obtain ⟨c, hc, hvc⟩ := List.mem_flatten.mp hvf
  have hsub := egoComponents_mem_sub g n c hc v hvc
  rcases (egoSubNodes_mem g n).mp hsub with ⟨hvn, hva⟩
  have hnv : n ∈ g.adj v := (hWF.2.2 n hn v hva).2.1
  rcases edgeList_cover g hWF hn hvn hva hnv with he | he
  · obtain ⟨pe, hpe, hfe⟩ := mapM_ok_mem hok _ he
    rcases getNewEdgeIds_ok_inv hfe with ⟨h1, _, _⟩
    have : pe.pu = p := by
      rw [hcomp] at h1
      exact (Option.some.injEq _ _ ▸ h1.symm)
    rw [pgNodes_eq]
    exact this ▸ (pgNodes_mem_of pes [] pe hpe).1
  · obtain ⟨pe, hpe, hfe⟩ := mapM_ok_mem hok _ he
    rcases getNewEdgeIds_ok_inv hfe with ⟨_, h2, _⟩
    have : pe.pv = p := by
      rw [hcomp] at h2
      exact (Option.some.injEq _ _ ▸ h2.symm)
    rw [pgNodes_eq]
    exact this ▸ (pgNodes_mem_of pes [] pe hpe).2

theorem sameUnordered_def {a b : Nat × Nat} :
    sameUnordered a b ↔ ((a.1 = b.1 ∧ a.2 = b.2) ∨ (a.1 = b.2 ∧ a.2 = b.1)) := Iff.rfl

theorem personaEdges_pairwise (g : Graph) (hWF : g.WF) (cf : Nat → List (List Nat)) {w : Bool}
    {pes : List PersonaEdge} (hok : personaGraphEdges g w (egoRun g cf) = .ok pes) :
    pes.Pairwise (fun pe pe' => ¬ sameUnordered (pe.pu, pe.pv) (pe'.pu, pe'.pv)) := by
  rcases mapM_ok_get hok with ⟨hlen, hget⟩
  rw [List.pairwise_iff_get]
  intro i j hij hsame
  have hiE : (i : Nat) < (edgeList g).length := by
    have := i.isLt
    omega
  have hjE : (j : Nat) < (edgeList g).length := by
    have := j.isLt
    omega
  rcases getNewEdgeIds_ok_inv (hget i hiE i.isLt) with ⟨hA1, hA2, _⟩
  rcases getNewEdgeIds_ok_inv (hget j hjE j.isLt) with ⟨hB1, hB2, _⟩
  have hOpu_i := egoRun_comp_pers g cf hA1
  have hOpv_i := egoRun_comp_pers g cf hA2
  have hOpu_j := egoRun_comp_pers g cf hB1
  have hOpv_j := egoRun_comp_pers g cf hB2
  have hmemi : (edgeList g).get ⟨i, hiE⟩ ∈ edgeList g := List.get_mem _ _ _
  have hmemj : (edgeList g).get ⟨j, hjE⟩ ∈ edgeList g := List.get_mem _ _ _
  rcases edgeList_mem g hmemi with ⟨hi1, hi2⟩
  rcases edgeList_mem g hmemj with ⟨hj1, hj2⟩
  have hi2n : ((edgeList g).get ⟨i, hiE⟩).2 ∈ g.nodes := (hWF.2.2 _ hi1 _ hi2).1
  have hj2n : ((edgeList g).get ⟨j, hjE⟩).2 ∈ g.nodes := (hWF.2.2 _ hj1 _ hj2).1
  have hep := (List.pairwise_iff_get.mp (edgeList_pairwise g hWF)) ⟨i, hiE⟩ ⟨j, hjE⟩
    (by exact hij)
  rcases sameUnordered_def.mp hsame with ⟨h1, h2⟩ | ⟨h1, h2⟩
  · have he1 : ((edgeList g).get ⟨i, hiE⟩).1 = ((edgeList g).get ⟨j, hjE⟩).1 :=
      egoRun_owner_unique g cf hWF.1 hi1 hj1 hOpu_i (by rw [show (pes.get i).pu = (pes.get j).pu from h1]; exact hOpu_j)
    have he2 : ((edgeList g).get ⟨i, hiE⟩).2 = ((edgeList g).get ⟨j, hjE⟩).2 :=
      egoRun_owner_unique g cf hWF.1 hi2n hj2n hOpv_i (by rw [show (pes.get i).pv = (pes.get j).pv from h2]; exact hOpv_j)
    exact hep (Or.inl ⟨he1, he2⟩)
  · have he1 : ((edgeList g).get ⟨i, hiE⟩).1 = ((edgeList g).get ⟨j, hjE⟩).2 :=
      egoRun_owner_unique g cf hWF.1 hi1 hj2n hOpu_i (by rw [show (pes.get i).pu = (pes.get j).pv from h1]; exact hOpv_j)
    have he2 : ((edgeList g).get ⟨i, hiE⟩).2 = ((edgeList g).get ⟨j, hjE⟩).1 :=
      egoRun_owner_unique g cf hWF.1 hi2n hj1 hOpv_i (by rw [show (pes.get i).pv = (pes.get j).pu from h2]; exact hOpu_j)
    exact hep (Or.inr ⟨he1, he2⟩)

/-! ### Counting personas and memberships -/

theorem egoFold_pers_len (cf : Nat → List (List Nat)) {l : List Nat} {n : Nat}
    (hnd : l.Nodup) (hn : n ∈ l) :
    ∀ st : EgoState, ∃ s, (egoFold cf st l).pers n = List.range' s (cf n).length := by
  induction l with
  | nil => simp at hn
  | cons m l ih =>
    intro st
    rw [egoFold_cons]
    rcases List.mem_cons.mp hn with rfl | hn'
    · have hm : n ∉ l := (List.nodup_cons.mp hnd).1
      exact ⟨st.index, ((egoFold_frame cf hm _).2).trans (doNode_pers_self _ _ _)⟩
    · exact ih (List.nodup_cons.mp hnd).2 hn' _

theorem egoRun_pers_length (g : Graph) (cf : Nat → List (List Nat)) (hnd : g.nodes.Nodup)
    {n : Nat} (hn : n ∈ g.nodes) : ((egoRun g cf).pers n).length = (cf n).length := by
  rw [egoRun_eq_egoFold]
  obtain ⟨s, hs⟩ := egoFold_pers_len cf hnd hn initState
  rw [hs, List.length_range']

theorem length_filter_fst (q : Nat → Bool) :
    ∀ (parts : List (Nat × Int)),
      (parts.filter (fun pc => q pc.1)).length = ((parts.map Prod.fst).filter q).length := by
  intro parts
  induction parts with
  | nil => rfl
  | cons pc parts ih =>
    rw [List.map_cons, List.filter_cons, List.filter_cons]
    cases hq : q pc.1 <;> simp [hq, ih]

theorem length_filter_mem {K l : List Nat} (hK : K.Nodup) (hl : l.Nodup)
    (hsub : ∀ x ∈ l, x ∈ K) :
    (K.filter (fun p => decide (p ∈ l))).length = l.length := by
  have hperm : (K.filter (fun p => decide (p ∈ l))).Perm l := by
    apply List.perm_of_nodup_nodup_toFinset_eq (hK.filter _) hl
    apply Finset.ext
    intro x
    rw [List.mem_toFinset, List.mem_toFinset, List.mem_filter, decide_eq_true_eq]
    constructor
    · rintro ⟨_, h⟩
      exact h
    · intro h
      exact ⟨hsub x h, h⟩
  exact hperm.length_eq

theorem lookupVal_of_mem {parts : List (Nat × Int)} (hnd : (parts.map Prod.fst).Nodup) :
    ∀ pc ∈ parts, lookupVal parts pc.1 = some pc.2 := by
  induction parts with
  | nil => intro pc h; simp at h
  | cons pc0 parts ih =>
    intro pc hpc
    unfold lookupVal
    rw [List.find?_cons]
    rcases List.mem_cons.mp hpc with rfl | hpc'
    · simp
    · have hne : pc.1 ≠ pc0.1 := by
        rw [List.map_cons, List.nodup_cons] at hnd
        intro he
        exact hnd.1 (he ▸ List.mem_map_of_mem Prod.fst hpc')
      have hdec : (decide (pc0.1 = pc.1)) = false := by
        rw [decide_eq_false_iff_not]
        exact fun he => hne he.symm
      simp only [hdec]
      have := ih (by rw [List.map_cons, List.nodup_cons] at hnd; exact hnd.2) pc hpc'
      unfold lookupVal at this
      exact this

theorem pmap_filter_congr (g : Graph) (cf : Nat → List (List Nat)) (hnd : g.nodes.Nodup)
    {n : Nat} (hn : n ∈ g.nodes) (K : List Nat) :
    K.filter (fun p => decide (personalityMap g (egoRun g cf) p = some n))
      = K.filter (fun p => decide (p ∈ (egoRun g cf).pers n)) := by
  apply List.filter_congr
  intro p _
  rw [decide_eq_decide]
  constructor
  · intro h
    exact (personalityMap_some_inv g _ h).2
  · intro h
    exact egoRun_pmap g cf hnd hn h

theorem louvain_fit_eval (g : Graph) (hWF : g.WF) (w : Bool)
    (L : List PersonaEdge → List (Nat × Int)) {pes : List PersonaEdge}
    (hpes : personaGraphEdges g w (egoRunC g) = .ok pes)
    (hcover : ∀ p, p ∈ (L pes).map Prod.fst ↔ p ∈ pgNodes pes) :
    ∃ m, fitModel g w (.name "components") (.name "louvain") L = .ok m ∧
      ∀ x, m x = if x ∈ g.nodes then
          some (((L pes).filter
            (fun pc => decide (personalityMap g (egoRunC g) pc.1 = some x))).map Prod.snd)
        else none := by
  have hok : ∀ pc ∈ L pes, ∃ ow ∈ g.nodes, personalityMap g (egoRunC g) pc.1 = some ow := by
    intro pc hpc
    have hkey : pc.1 ∈ (L pes).map Prod.fst := List.mem_map_of_mem _ hpc
    obtain ⟨nn, hnn, hpn⟩ :=
      pgNodes_are_personas g hWF (egoComponents g) hpes pc.1 ((hcover pc.1).mp hkey)
    exact ⟨nn, hnn, egoRun_pmap g (egoComponents g) hWF.1 hnn hpn⟩
  obtain ⟨m, hm, heval⟩ := buildMemberships_eval g (L pes) _ hok
  refine ⟨m, ?_, heval⟩
  unfold fitModel
  rw [exceptOk_bind _ (createEgonets_components g)]
  rw [exceptOk_bind _ hpes]
  rw [exceptOk_bind _ (rfl : partitionsDict pes (.name "louvain") L = .ok (L pes))]
  exact hm

theorem membership_keys_perm (g : Graph) (hWF : g.WF) {w : Bool}
    {pes : List PersonaEdge} (hpes : personaGraphEdges g w (egoRunC g) = .ok pes)
    {parts : List (Nat × Int)} (hkeys : (parts.map Prod.fst).Nodup)
    (hcover : ∀ p, p ∈ parts.map Prod.fst ↔ p ∈ pgNodes pes)
    {n : Nat} (hn : n ∈ g.nodes) :
    ((parts.filter
        (fun pc => decide (personalityMap g (egoRunC g) pc.1 = some n))).map Prod.fst).Perm
      ((egoRunC g).pers n) := by
  apply List.perm_of_nodup_nodup_toFinset_eq
  · exact ((List.filter_sublist parts).map Prod.fst).nodup hkeys
  · exact egoRun_pers_nodup g (egoComponents g) hWF.1 n
  · apply Finset.ext
    intro x
    rw [List.mem_toFinset, List.mem_toFinset, List.mem_map]
    constructor
    · rintro ⟨pc, hpc, rfl⟩
      rcases List.mem_filter.mp hpc with ⟨_, hdec⟩
      exact (personalityMap_some_inv g _ (of_decide_eq_true hdec)).2
    · intro hx
      have hxK : x ∈ parts.map Prod.fst :=
        (hcover x).mpr (egoRunC_pers_in_pgNodes g hWF hpes hn hx)
      rcases List.mem_map.mp hxK with ⟨pc, hpc, rfl⟩
      refine ⟨pc, List.mem_filter.mpr ⟨hpc, ?_⟩, rfl⟩
      exact decide_eq_true (egoRun_pmap g (egoComponents g) hWF.1 hn hx)

/-! ### Claim theorems -/

/-- C1: for every graph fitted in weighted mode (weight key not `None`) with
the default `'components'` local strategy, `_create_persona_graph` succeeds;
the persona edge list has one entry per original edge, the resulting persona
graph has exactly as many edges as the original graph (the emitted persona
pairs are pairwise distinct, so `nx.from_edgelist` merges nothing), and the
i-th persona edge carries exactly the weight attribute of the i-th original
edge. -/
theorem C1_weighted_edge_bijection (g : Graph) (hWF : g.WF) :
    ∃ pes, personaGraphEdges g true (egoRunC g) = .ok pes ∧
      pes.length = (edgeList g).length ∧
      (pgEdgePairs pes).length = (edgeList g).length ∧
      pes.Pairwise (fun pe pe' => ¬ sameUnordered (pe.pu, pe.pv) (pe'.pu, pe'.pv)) ∧
      (∀ (i : Nat) (hi : i < (edgeList g).length) (hi' : i < pes.length),
        (pes.get ⟨i, hi'⟩).w
          = g.wAttr ((edgeList g).get ⟨i, hi⟩).1 ((edgeList g).get ⟨i, hi⟩).2) := by
  obtain ⟨pes, hok⟩ := personaGraphEdges_ok g hWF true
  have hpair := personaEdges_pairwise g hWF (egoComponents g) hok
  have hlen := (mapM_ok_get hok).1
  refine ⟨pes, hok, hlen, ?_, hpair, ?_⟩
  · rw [pgEdgePairs_eq, pgeFold_len pes [] (by simp) hpair]
    simpa using hlen
  · intro i hi hi'
    have hw := (getNewEdgeIds_ok_inv ((mapM_ok_get hok).2 i hi hi')).2.2
    rw [hw]
    rfl

/-- C1 witness: the weighted triangle graph. -/
theorem C1_witness : triG.WF ∧
    (∃ pes, personaGraphEdges triG true (egoRunC triG) = .ok pes ∧
      pes.length = (edgeList triG).length ∧
      (pgEdgePairs pes).length = (edgeList triG).length ∧
      pes.Pairwise (fun pe pe' => ¬ sameUnordered (pe.pu, pe.pv) (pe'.pu, pe'.pv)) ∧
      (∀ (i : Nat) (hi : i < (edgeList triG).length) (hi' : i < pes.length),
        (pes.get ⟨i, hi'⟩).w
          = triG.wAttr ((edgeList triG).get ⟨i, hi⟩).1 ((edgeList triG).get ⟨i, hi⟩).2)) :=
  ⟨by decide, C1_weighted_edge_bijection triG (by decide)⟩

/-- C2: with the default `'components'` local strategy and a global
partitioner satisfying the spec contract (duplicate-free keys that are
exactly the persona-graph nodes), `fit` succeeds and for every node `n` the
membership list of `n` has exactly as many entries as the local clusters
produced for `n`'s ego-net. -/
theorem C2_membership_length (g : Graph) (hWF : g.WF) (w : Bool)
    (L : List PersonaEdge → List (Nat × Int)) {pes : List PersonaEdge}
    (hpes : personaGraphEdges g w (egoRunC g) = .ok pes)
    (hkeys : ((L pes).map Prod.fst).Nodup)
    (hc1 : (L pes).map Prod.fst ⊆ pgNodes pes)
    (hc2 : pgNodes pes ⊆ (L pes).map Prod.fst) :
    ∃ m, fitModel g w (.name "components") (.name "louvain") L = .ok m ∧
      ∀ n ∈ g.nodes, ∃ lst, m n = some lst ∧ lst.length = (egoComponents g n).length := by
  have hcover : ∀ p, p ∈ (L pes).map Prod.fst ↔ p ∈ pgNodes pes :=
    fun p => ⟨fun h => hc1 h, fun h => hc2 h⟩
  obtain ⟨m, hm, heval⟩ := louvain_fit_eval g hWF w L hpes hcover
  refine ⟨m, hm, ?_⟩
  intro n hn
  refine ⟨_, by rw [heval n, if_pos hn], ?_⟩
  unfold egoRunC
  rw [List.length_map]
  rw [length_filter_fst
    (fun p => decide (personalityMap g (egoRun g (egoComponents g)) p = some n)) (L pes)]
  rw [pmap_filter_congr g (egoComponents g) hWF.1 hn ((L pes).map Prod.fst)]
  have hsubK : ∀ x ∈ (egoRun g (egoComponents g)).pers n, x ∈ (L pes).map Prod.fst := by
    intro x hx
    exact (hcover x).mpr (egoRunC_pers_in_pgNodes g hWF hpes hn hx)
  rw [length_filter_mem hkeys (egoRun_pers_nodup g (egoComponents g) hWF.1 n) hsubK]
  exact egoRun_pers_length g (egoComponents g) hWF.1 hn

/-- C2 witness: the star graph with a contract-satisfying partition of its
four personas. -/
theorem C2_witness : starG.WF ∧
    (∃ m, fitModel starG false (.name "components") (.name "louvain")
        (fun _ => [(0, 5), (1, 6), (2, 7), (3, 8)]) = .ok m ∧
      ∀ n ∈ starG.nodes, ∃ lst, m n = some lst ∧
        lst.length = (egoComponents starG n).length) :=
  ⟨by decide,
   C2_membership_length starG (by decide) false (fun _ => [(0, 5), (1, 6), (2, 7), (3, 8)])
     rfl (by decide) (by decide) (by decide)⟩

/-- C3 counterexample: on the star graph, a global strategy whose returned
partition dict iterates persona 1 before persona 0 makes `Membership[0]`
equal `[10, 20]`, while the claim's list
`[CommunityAssignment[p] for p in personalities[0]]` is `[20, 10]`: the
membership list is NOT in persona-creation order. -/
theorem C3_counterexample :
    memAt (fitModel starG false (.name "components")
      (.callable (fun _ => [(1, 10), (0, 20), (2, 30), (3, 40)])) (fun _ => [])) 0
      = some [10, 20] ∧
    ((egoRunC starG).pers 0).map
      (fun p => (lookupVal [(1, 10), (0, 20), (2, 30), (3, 40)] p).getD 0) = [20, 10] ∧
    memAt (fitModel starG false (.name "components")
      (.callable (fun _ => [(1, 10), (0, 20), (2, 30), (3, 40)])) (fun _ => [])) 0
      ≠ some (((egoRunC starG).pers 0).map
        (fun p => (lookupVal [(1, 10), (0, 20), (2, 30), (3, 40)] p).getD 0)) := by
  refine ⟨rfl, rfl, ?_⟩
  decide

/-- C3 amended: with the `'components'` local strategy and a
contract-satisfying global partitioner, the membership list of each node is a
permutation of `[CommunityAssignment[p] for p in personalities[n]]`; the
order is the iteration order of the returned partition mapping, not
necessarily persona-creation order. -/
theorem C3_membership_perm (g : Graph) (hWF : g.WF) (w : Bool)
    (L : List PersonaEdge → List (Nat × Int)) {pes : List PersonaEdge}
    (hpes : personaGraphEdges g w (egoRunC g) = .ok pes)
    (hkeys : ((L pes).map Prod.fst).Nodup)
    (hc1 : (L pes).map Prod.fst ⊆ pgNodes pes)
    (hc2 : pgNodes pes ⊆ (L pes).map Prod.fst) :
    ∃ m, fitModel g w (.name "components") (.name "louvain") L = .ok m ∧
      ∀ n ∈ g.nodes, ∃ lst, m n = some lst ∧
        lst.Perm (((egoRunC g).pers n).map (fun p => (lookupVal (L pes) p).getD 0)) := by
  have hcover : ∀ p, p ∈ (L pes).map Prod.fst ↔ p ∈ pgNodes pes :=
    fun p => ⟨fun h => hc1 h, fun h => hc2 h⟩
  obtain ⟨m, hm, heval⟩ := louvain_fit_eval g hWF w L hpes hcover
  refine ⟨m, hm, ?_⟩
  intro n hn
  refine ⟨_, by rw [heval n, if_pos hn], ?_⟩
  have h1 : ((L pes).filter
        (fun pc => decide (personalityMap g (egoRunC g) pc.1 = some n))).map Prod.snd
      = ((L pes).filter
        (fun pc => decide (personalityMap g (egoRunC g) pc.1 = some n))).map
          (fun pc => (lookupVal (L pes) pc.1).getD 0) := by
    apply List.map_congr_left
    intro pc hpc
    rw [lookupVal_of_mem hkeys pc (List.mem_of_mem_filter hpc)]
    rfl
  have h2 : ((L pes).filter
        (fun pc => decide (personalityMap g (egoRunC g) pc.1 = some n))).map
          (fun pc => (lookupVal (L pes) pc.1).getD 0)
      = (((L pes).filter
        (fun pc => decide (personalityMap g (egoRunC g) pc.1 = some n))).map Prod.fst).map
          (fun p => (lookupVal (L pes) p).getD 0) := by
    rw [List.map_map]
    rfl
  rw [h1, h2]
  exact List.Perm.map _ (membership_keys_perm g hWF hpes hkeys hcover hn)

/-- C3 amended witness: the star graph with the reordering partitioner of the
counterexample, which still yields a permutation. -/
theorem C3_witness : starG.WF ∧
    (∃ m, fitModel starG false (.name "components") (.name "louvain")
        (fun _ => [(1, 10), (0, 20), (2, 30), (3, 40)]) = .ok m ∧
      ∀ n ∈ starG.nodes, ∃ lst, m n = some lst ∧
        lst.Perm (((egoRunC starG).pers n).map
          (fun p => (lookupVal [(1, 10), (0, 20), (2, 30), (3, 40)] p).getD 0))) :=
  ⟨by decide,
   C3_membership_perm starG (by decide) false (fun _ => [(1, 10), (0, 20), (2, 30), (3, 40)])
     rfl (by decide) (by decide) (by decide)⟩

/-- C4: for every well-formed graph and the default `'components'` local
strategy, the persona lookups `components[u][v]` and `components[v][u]` of
`_get_new_edge_ids` succeed for every original edge, and persona-graph
construction never reaches the missing-assignment failure (in either weight
mode). -/
theorem C4_lookups_always_succeed (g : Graph) (hWF : g.WF) :
    (∀ e ∈ edgeList g,
      ((egoRunC g).comp e.1 e.2).isSome ∧ ((egoRunC g).comp e.2 e.1).isSome) ∧
    ∀ w, ∃ pes, personaGraphEdges g w (egoRunC g) = .ok pes :=
  ⟨fun _ he => edge_lookups_ok g hWF he, fun w => personaGraphEdges_ok g hWF w⟩

/-- C4 witness: the triangle graph. -/
theorem C4_witness :
    triG.WF ∧
    ((∀ e ∈ edgeList triG,
      ((egoRunC triG).comp e.1 e.2).isSome ∧ ((egoRunC triG).comp e.2 e.1).isSome) ∧
    ∀ w, ∃ pes, personaGraphEdges triG w (egoRunC triG) = .ok pes) :=
  ⟨by decide, C4_lookups_always_succeed triG (by decide)⟩

/-- C5 counterexample: a local strategy that puts the neighbor of each node
into two clusters (duplicating it across clusters, violating the partition
contract) is accepted silently: `fit` completes without any error, with no
`InvalidStrategyResult`-style failure. -/
theorem C5_counterexample :
    clustersFn pathG dupLocal 0 = [[1], [1]] ∧
    isOkB (fitModel pathG false dupLocal
      (.callable (fun _ => [(1, 0), (3, 0)])) (fun _ => [])) = true ∧
    memAt (fitModel pathG false dupLocal
      (.callable (fun _ => [(1, 0), (3, 0)])) (fun _ => [])) 0 = some [0] :=
  ⟨rfl, rfl, rfl⟩

/-- C5 amended: `_create_egonet` performs no validation of the local strategy
output.  Duplicated or foreign cluster members are accepted silently (the
last cluster wins the mapping); the only contract violation that makes `fit`
fail is an omission that leaves an edge endpoint unmapped, and it surfaces
later, as the `KeyError` of `_get_new_edge_ids` (the spec's
`MissingClusterAssignment`), not as an `InvalidStrategyResult` at
decomposition time. -/
theorem C5_omission_keyError (g : Graph) (w : Bool) (st : EgoState)
    (h : ∃ e ∈ edgeList g, st.comp e.1 e.2 = none ∨ st.comp e.2 e.1 = none) :
    personaGraphEdges g w st = .error .keyError :=
  personaGraphEdges_miss g w st h

/-- C5 amended witness: the strategy returning no clusters at all omits every
neighbor and makes persona-graph construction raise `KeyError`. -/
theorem C5_witness :
    (∃ e ∈ edgeList pathG,
      (egoRun pathG (clustersFn pathG emptyLocal)).comp e.1 e.2 = none ∨
      (egoRun pathG (clustersFn pathG emptyLocal)).comp e.2 e.1 = none) ∧
    personaGraphEdges pathG false (egoRun pathG (clustersFn pathG emptyLocal))
      = .error .keyError :=
  ⟨by decide, C5_omission_keyError pathG false _ (by decide)⟩

/-- C6: an unrecognized `method_local` string aborts `fit` with the
`ValueError` of `_create_egonet`, but an unrecognized `method_global` string
matches no branch of `_create_partitions`: `self.partitions` stays unset and
`fit` crashes with `AttributeError` (after `self.overlapping_partitions` was
already initialized to empty lists); the two failure modes differ, so the
global branch lacks the dedicated unsupported-name error the claim (and the
local branch) promise. -/
theorem C6_unknown_name_behavior :
    fitModel pathG false (.name "bogus") (.callable (fun _ => [])) (fun _ => [])
      = .error .valueError ∧
    fitModel pathG false (.name "components") (.name "leiden") (fun _ => [])
      = .error .attributeError ∧
    PyError.attributeError ≠ PyError.valueError :=
  ⟨rfl, rfl, by decide⟩

/-- C7 counterexample: in weighted mode, the edge of `pathG` carries no
weight attribute; the emitted persona edge omits the weight entirely
(`w = none`), it does not receive the claimed default weight 1. -/
theorem C7_counterexample :
    personaGraphEdges pathG true (egoRunC pathG) = .ok [⟨0, 1, none⟩] ∧
    (⟨0, 1, none⟩ : PersonaEdge).w ≠ some 1 :=
  ⟨rfl, by decide⟩

/-- C7 amended: a persona edge carries exactly the weight attribute of its
original edge when weighting is enabled — so a missing attribute is emitted
as missing, not defaulted to 1 — and carries no weight at all when weighting
is disabled. -/
theorem C7_weight_copied (g : Graph) (w : Bool) (st : EgoState) {pes : List PersonaEdge}
    (hok : personaGraphEdges g w st = .ok pes) :
    ∀ (i : Nat) (hi : i < (edgeList g).length) (hi' : i < pes.length),
      (pes.get ⟨i, hi'⟩).w
        = if w then g.wAttr ((edgeList g).get ⟨i, hi⟩).1 ((edgeList g).get ⟨i, hi⟩).2
          else none := by
  intro i hi hi'
  exact (getNewEdgeIds_ok_inv ((mapM_ok_get hok).2 i hi hi')).2.2

/-- C7 amended witness: the weighted two-node path, whose single edge weight
7 is copied verbatim. -/
theorem C7_witness :
    personaGraphEdges pathW true (egoRunC pathW) = .ok [⟨0, 1, some 7⟩] ∧
    (∀ (i : Nat) (hi : i < (edgeList pathW).length) (hi' : i < [(⟨0, 1, some 7⟩ : PersonaEdge)].length),
      (([(⟨0, 1, some 7⟩ : PersonaEdge)]).get ⟨i, hi'⟩).w
        = if true then pathW.wAttr ((edgeList pathW).get ⟨i, hi⟩).1 ((edgeList pathW).get ⟨i, hi⟩).2
          else none) :=
  ⟨rfl, C7_weight_copied pathW true (egoRunC pathW) rfl⟩

/-- C8: after `_create_egonets` (under any local cluster function) and
`_map_personalities`, the persona ids listed across all nodes, in node order,
are exactly `0, 1, ..., index-1` (contiguous, no gaps, no repeats, none
reused across nodes), and `personality_map` is total on the allocated range,
mapping each persona to its unique owning node, and is undefined beyond it. -/
theorem C8_personality_map_total (g : Graph) (cf : Nat → List (List Nat))
    (hnd : g.nodes.Nodup) :
    g.nodes.flatMap (egoRun g cf).pers = List.range (egoRun g cf).index ∧
    (∀ p, p < (egoRun g cf).index →
      ∃ n, personalityMap g (egoRun g cf) p = some n ∧ n ∈ g.nodes ∧
        p ∈ (egoRun g cf).pers n ∧
        ∀ n' ∈ g.nodes, p ∈ (egoRun g cf).pers n' → n' = n) ∧
    (∀ p, (egoRun g cf).index ≤ p → personalityMap g (egoRun g cf) p = none) := by
  refine ⟨egoRun_flat g cf hnd, ?_, fun p hp => egoRun_pmap_none g cf hnd hp⟩
  intro p hp
  obtain ⟨n, hn, hpn⟩ := egoRun_pers_complete g cf hnd hp
  exact ⟨n, egoRun_pmap g cf hnd hn hpn, hn, hpn,
    fun n' hn' hp' => egoRun_owner_unique g cf hnd hn' hn hp' hpn⟩

/-- C8 witness: the star graph under the `'components'` strategy. -/
theorem C8_witness :
    starG.nodes.flatMap (egoRun starG (egoComponents starG)).pers
      = List.range (egoRun starG (egoComponents starG)).index ∧
    (∀ p, p < (egoRun starG (egoComponents starG)).index →
      ∃ n, personalityMap starG (egoRun starG (egoComponents starG)) p = some n ∧
        n ∈ starG.nodes ∧ p ∈ (egoRun starG (egoComponents starG)).pers n ∧
        ∀ n' ∈ starG.nodes, p ∈ (egoRun starG (egoComponents starG)).pers n' → n' = n) ∧
    (∀ p, (egoRun starG (egoComponents starG)).index ≤ p →
      personalityMap starG (egoRun starG (egoComponents starG)) p = none) :=
  C8_personality_map_total starG (egoComponents starG) (by decide)

/-- C9: a node with no neighbors gets zero personas under the default
`'components'` strategy, and whenever the aggregation loop of
`_create_partitions` succeeds its membership list is empty. -/
theorem C9_isolated_node (g : Graph) (hWF : g.WF) {n : Nat} (hn : n ∈ g.nodes)
    (hadj : g.adj n = []) :
    (egoRunC g).pers n = [] ∧
    ∀ (parts : List (Nat × Int)) (m : Nat → Option (List Int)),
      buildMemberships g parts (personalityMap g (egoRunC g)) = .ok m → m n = some [] := by
  have hsub : egoSubNodes g n = [] := by
    unfold egoSubNodes
    rw [hadj]
    simp
  have hcomp : egoComponents g n = [] := by
    unfold egoComponents
    rw [hsub]
    rfl
  have hlen : ((egoRunC g).pers n).length = 0 := by
    unfold egoRunC
    rw [egoRun_pers_length g _ hWF.1 hn, hcomp]
    rfl
  have hpers : (egoRunC g).pers n = [] := List.length_eq_zero.mp hlen
  refine ⟨hpers, ?_⟩
  intro parts m hbuild
  refine buildMemberships_const g parts _ ?_ hbuild hn
  intro pc _ hcontra
  have hmem := (personalityMap_some_inv g _ hcontra).2
  rw [hpers] at hmem
  simp at hmem

/-- C9 witness: the isolated node 2 of `isoG`, with the concrete partition
`[(0, 0), (1, 0)]` of the two personas of the path component. -/
theorem C9_witness :
    isoG.WF ∧
    ((egoRunC isoG).pers 2 = [] ∧
    ∀ (parts : List (Nat × Int)) (m : Nat → Option (List Int)),
      buildMemberships isoG parts (personalityMap isoG (egoRunC isoG)) = .ok m →
        m 2 = some []) :=
  ⟨by decide, C9_isolated_node isoG (by decide) (by decide) (by decide)⟩

/-- C10: whenever `fit` succeeds, the mapping `get_memberships` returns has
exactly the graph's nodes as keys — nodes owning no persona included. -/
theorem C10_membership_keys (g : Graph) (w : Bool) (lm : LocalMethod) (gm : GlobalMethod)
    (L : List PersonaEdge → List (Nat × Int))
    (h : isOkB (fitModel g w lm gm L) = true) :
    ∀ x, (memAt (fitModel g w lm gm L) x).isSome ↔ x ∈ g.nodes := by
  cases hm : fitModel g w lm gm L with
  | error e =>
    rw [hm] at h
    exact absurd h (by simp [isOkB])
  | ok m =>
    intro x
    have hme : memAt (Except.ok m : Except PyError (Nat → Option (List Int))) x = m x := rfl
    rw [hme]
    unfold fitModel at hm
    obtain ⟨st, _, h2⟩ := exceptBind_ok hm
    obtain ⟨pes, _, h4⟩ := exceptBind_ok h2
    obtain ⟨parts, _, h6⟩ := exceptBind_ok h4
    exact buildMemberships_domain g parts _ h6 x

/-- C10 witness: the two-node path with a concrete global partition. -/
theorem C10_witness :
    isOkB (fitModel pathG false (.name "components")
      (.callable (fun _ => [(0, 3), (1, 3)])) (fun _ => [])) = true ∧
    ∀ x, (memAt (fitModel pathG false (.name "components")
      (.callable (fun _ => [(0, 3), (1, 3)])) (fun _ => [])) x).isSome ↔ x ∈ pathG.nodes :=
  ⟨rfl, C10_membership_keys pathG false (.name "components")
    (.callable (fun _ => [(0, 3), (1, 3)])) (fun _ => []) rfl⟩

end EgoSplitter
